import Mathlib

/-!
# Verification of the mu_store container library

A shallow embedding of the mu_store fixed-capacity container family
(`mu_spsc`, `mu_store` sort/search, `mu_vec`, `mu_pvec`, `mu_queue`,
`mu_pqueue`, `mu_pool`) together with proofs about its specified behavior.

Modelling conventions:
* C machine integers (`size_t`, `uint16_t`) are modelled as `Nat`; the SPSC
  index arithmetic stays well below 2^16 throughout, so no wrap modelling is
  needed beyond the explicit `& mask` of the source.
* Nullable C pointers that the code checks (`!v`, `!item_in`, `!compare_fn`)
  are modelled as `Option` parameters; a `none` argument is a NULL pointer.
* The byte-copying containers copy whole records; a record is a value of an
  abstract element type `α`, so `memcpy` of one item becomes value assignment.
* A vector's backing storage past `count` is never read by any modelled
  operation, so a vector is modelled by the list of its live elements
  (`items.length = count`) plus its `capacity`.
* Fallible operations return their `mu_store_err_t` / `mu_spsc_err_t` result
  paired with the post-state (and any value written through an out-pointer).
-/


/-- Shared error taxonomy, from `mu_store.h` (`mu_store_err_t`). -/
inductive mu_store_err_t where
  | MU_STORE_ERR_NONE
  | MU_STORE_ERR_PARAM
  | MU_STORE_ERR_INDEX
  | MU_STORE_ERR_NOTFOUND
  | MU_STORE_ERR_EMPTY
  | MU_STORE_ERR_FULL
  | MU_STORE_ERR_EXISTS
  | MU_STORE_ERR_INTERNAL
  deriving DecidableEq, Repr

export mu_store_err_t (MU_STORE_ERR_NONE MU_STORE_ERR_PARAM MU_STORE_ERR_INDEX
  MU_STORE_ERR_NOTFOUND MU_STORE_ERR_EMPTY MU_STORE_ERR_FULL MU_STORE_ERR_EXISTS
  MU_STORE_ERR_INTERNAL)

/-- Sorted-insertion policies, from `mu_store.h` (`mu_store_insert_policy_t`). -/
inductive mu_store_insert_policy_t where
  | MU_STORE_INSERT_ANY
  | MU_STORE_INSERT_FIRST
  | MU_STORE_INSERT_LAST
  | MU_STORE_UPDATE_FIRST
  | MU_STORE_UPDATE_LAST
  | MU_STORE_UPDATE_ALL
  | MU_STORE_UPSERT_FIRST
  | MU_STORE_UPSERT_LAST
  | MU_STORE_INSERT_UNIQUE
  | MU_STORE_INSERT_DUPLICATE
  deriving DecidableEq, Repr

export mu_store_insert_policy_t (MU_STORE_INSERT_ANY MU_STORE_INSERT_FIRST
  MU_STORE_INSERT_LAST MU_STORE_UPDATE_FIRST MU_STORE_UPDATE_LAST
  MU_STORE_UPDATE_ALL MU_STORE_UPSERT_FIRST MU_STORE_UPSERT_LAST
  MU_STORE_INSERT_UNIQUE MU_STORE_INSERT_DUPLICATE)

/-- A three-way comparator (`mu_store_compare_fn`) is *consistent* when the
nonstrict order it induces is antisymmetric in sign (`cmp x y <= 0` exactly
when `cmp y x >= 0`) and transitive.  This captures the spec's requirement of
a consistent (antisymmetric, transitive) total order. -/
def CmpConsistent {α : Type _} (cmp : α → α → Int) : Prop :=
  (∀ x y, cmp x y ≤ 0 ↔ 0 ≤ cmp y x) ∧
  (∀ x y z, cmp x y ≤ 0 → cmp y z ≤ 0 → cmp x z ≤ 0)

/-- A list is sorted ascending under a three-way comparator when every earlier
element compares `<= 0` against every later one. -/
def SortedBy {α : Type _} (cmp : α → α → Int) (l : List α) : Prop :=
  l.Pairwise (fun a b => cmp a b ≤ 0)

-- *****************************************************************************
-- SPSC ring buffer (mu_spsc.c)

/-- State of the SPSC ring buffer (`mu_spsc_t`).  `mu_spsc_item_t` is `void *`,
modelled as `Option β` (`none` is the NULL pointer).  The store is the backing
array of `mask + 1` slots. -/
structure mu_spsc_t (β : Type _) where
  store : List (Option β)
  mask : Nat
  head : Nat
  tail : Nat
  deriving DecidableEq, Repr

/-- SPSC error taxonomy (`mu_spsc_err_t`). -/
inductive mu_spsc_err_t where
  | MU_SPSC_ERR_NONE
  | MU_SPSC_ERR_EMPTY
  | MU_SPSC_ERR_FULL
  | MU_SPSC_ERR_SIZE
  deriving DecidableEq, Repr

export mu_spsc_err_t (MU_SPSC_ERR_NONE MU_SPSC_ERR_EMPTY MU_SPSC_ERR_FULL
  MU_SPSC_ERR_SIZE)

/-- `mu_spsc_reset`: set both indices to zero. -/
def mu_spsc_reset {β : Type _} (q : mu_spsc_t β) : mu_spsc_err_t × mu_spsc_t β :=
  (MU_SPSC_ERR_NONE, { q with head := 0, tail := 0 })

/-- `mu_spsc_init`: fails with a size error unless the store length is `>= 2`
and a power of two (`IS_POWER_OF_TWO(n)` is `(n & (n-1)) == 0`); otherwise
records the store, sets `mask = store_size - 1` and resets.  The caller
supplies a store of exactly `store_size` slots, so `store_size` is the length
of the modelled store. -/
def mu_spsc_init {β : Type _} (store : List (Option β)) :
    mu_spsc_err_t × Option (mu_spsc_t β) :=
  if store.length < 2 ∨ ¬ store.length &&& (store.length - 1) = 0 then
    (MU_SPSC_ERR_SIZE, none)
  else
    let r := mu_spsc_reset ⟨store, store.length - 1, 0, 0⟩
    (r.1, some r.2)

/-- `mu_spsc_capacity`: returns `mask` (one less than the store size). -/
def mu_spsc_capacity {β : Type _} (q : mu_spsc_t β) : Nat := q.mask

/-- `mu_spsc_put`: compute `next_tail = (tail + 1) & mask`; full when it equals
`head` (no write); otherwise write the item at `tail` and publish the new
tail. -/
def mu_spsc_put {β : Type _} (q : mu_spsc_t β) (item : Option β) :
    mu_spsc_err_t × mu_spsc_t β :=
  let next_tail := (q.tail + 1) &&& q.mask
  if next_tail = q.head then
    (MU_SPSC_ERR_FULL, q)
  else
    (MU_SPSC_ERR_NONE, { q with store := q.store.set q.tail item, tail := next_tail })

/-- `mu_spsc_get`: on empty (`head == tail`) writes NULL through `item` and
fails; otherwise reads the slot at `head` and publishes `head = (head+1) &
mask`.  The middle component is the value written through the `item` out
pointer. -/
def mu_spsc_get {β : Type _} (q : mu_spsc_t β) :
    mu_spsc_err_t × Option β × mu_spsc_t β :=
  if q.head = q.tail then
    (MU_SPSC_ERR_EMPTY, none, q)
  else
    (MU_SPSC_ERR_NONE, q.store.getD q.head none,
      { q with head := (q.head + 1) &&& q.mask })

/-- A straight-line single-threaded sequence of `mu_spsc_put` calls, one per
item; returns the list of results and the final state. -/
def mu_spsc_put_all {β : Type _} (q : mu_spsc_t β) :
    List (Option β) → List mu_spsc_err_t × mu_spsc_t β
  | [] => ([], q)
  | x :: xs =>
    let r := mu_spsc_put q x
    let rest := mu_spsc_put_all r.2 xs
    (r.1 :: rest.1, rest.2)

/-- A straight-line single-threaded sequence of `n` `mu_spsc_get` calls;
returns the list of (result, value written through the out pointer) pairs and
the final state. -/
def mu_spsc_get_all {β : Type _} (q : mu_spsc_t β) :
    Nat → List (mu_spsc_err_t × Option β) × mu_spsc_t β
  | 0 => ([], q)
  | n + 1 =>
    let r := mu_spsc_get q
    let rest := mu_spsc_get_all r.2.2 n
    ((r.1, r.2.1) :: rest.1, rest.2)

-- *****************************************************************************
-- Shared algorithm layer: heapsort (mu_store.c)

/-- `swap_items` / `swap_pointers` exchange the contents of two slots of the
array being sorted; in the list model this swaps two positions. -/
def swap_items {α : Type _} [Inhabited α] (l : List α) (i j : Nat) : List α :=
  (l.set i (l.getD j default)).set j (l.getD i default)

/-- The `largest` index computed by one step of `heapify_items` /
`heapify_pointers`: the root `i` or whichever in-bounds child compares
greater. -/
def heapify_largest {α : Type _} [Inhabited α] (cmp : α → α → Int)
    (l : List α) (n i : Nat) : Nat :=
  let largest1 :=
    if 2 * i + 1 < n ∧ 0 < cmp (l.getD (2 * i + 1) default) (l.getD i default) then
      2 * i + 1
    else i
  if 2 * i + 2 < n ∧ 0 < cmp (l.getD (2 * i + 2) default) (l.getD largest1 default) then
    2 * i + 2
  else largest1

set_option linter.unusedVariables false in
/-- `heapify_items` / `heapify_pointers`: restore the max-heap property for
the subtree rooted at `i` within the first `n` slots, assuming both child
subtrees are already heaps.  The two C functions are textually identical up
to copying records versus copying pointers, which coincide in the value
model. -/
def heapify {α : Type _} [Inhabited α] (cmp : α → α → Int) (l : List α)
    (n i : Nat) : List α :=
  let largest := heapify_largest cmp l n i
  if hne : largest = i then l
  else heapify cmp (swap_items l i largest) n largest
termination_by n - i
decreasing_by
  have h' : heapify_largest cmp l n i = i ∨
      (i < heapify_largest cmp l n i ∧ heapify_largest cmp l n i < n) := by
    simp only [heapify_largest]
    split_ifs <;> omega
  rcases h' with h' | h'
  · exact absurd h' hne
  · omega

/-- The max-heap build loop of `mu_store_sort` / `mu_store_psort`:
`for (int i = item_count/2 - 1; i >= 0; i--) heapify(base, item_count, i)`.
The `Nat` argument is the current loop index. -/
def heapify_build_loop {α : Type _} [Inhabited α] (cmp : α → α → Int)
    (n : Nat) : List α → Nat → List α
  | l, 0 => heapify cmp l n 0
  | l, i + 1 => heapify_build_loop cmp n (heapify cmp l n (i + 1)) i

/-- The extraction loop of `mu_store_sort` / `mu_store_psort`:
`for (size_t i = item_count - 1; i > 0; i--) { swap(0, i); heapify(base, i, 0); }`.
The `Nat` argument is the current loop index. -/
def heapsort_extract_loop {α : Type _} [Inhabited α] (cmp : α → α → Int) :
    List α → Nat → List α
  | l, 0 => l
  | l, i + 1 =>
    heapsort_extract_loop cmp (heapify cmp (swap_items l 0 (i + 1)) (i + 1) 0) i

/-- `mu_store_sort`: in-place ascending heapsort of an array of `item_count`
fixed-size records.  Fails with a parameter error when `base` or `compare_fn`
is NULL or `item_size` is zero; succeeds without touching the array when
`item_count <= 1`.  The modelled array is exactly the `item_count` records. -/
def mu_store_sort {α : Type _} [Inhabited α] (base : Option (List α))
    (item_size : Nat) (compare_fn : Option (α → α → Int)) :
    mu_store_err_t × Option (List α) :=
  match base, compare_fn with
  | none, _ => (MU_STORE_ERR_PARAM, none)
  | some l, none => (MU_STORE_ERR_PARAM, some l)
  | some l, some cmp =>
    if item_size = 0 then (MU_STORE_ERR_PARAM, some l)
    else if l.length ≤ 1 then (MU_STORE_ERR_NONE, some l)
    else
      (MU_STORE_ERR_NONE,
        some (heapsort_extract_loop cmp
          (heapify_build_loop cmp l.length l (l.length / 2 - 1)) (l.length - 1)))

/-- `mu_store_psort`: in-place ascending heapsort of an array of pointers;
identical to `mu_store_sort` except that there is no `item_size` parameter to
validate. -/
def mu_store_psort {α : Type _} [Inhabited α] (base : Option (List α))
    (compare_fn : Option (α → α → Int)) :
    mu_store_err_t × Option (List α) :=
  match base, compare_fn with
  | none, _ => (MU_STORE_ERR_PARAM, none)
  | some l, none => (MU_STORE_ERR_PARAM, some l)
  | some l, some cmp =>
    if l.length ≤ 1 then (MU_STORE_ERR_NONE, some l)
    else
      (MU_STORE_ERR_NONE,
        some (heapsort_extract_loop cmp
          (heapify_build_loop cmp l.length l (l.length / 2 - 1)) (l.length - 1)))

/-- `isDesc i j` holds when slot `j` lies in the binary-heap subtree rooted at
slot `i` (children of `p` are `2p+1` and `2p+2`). -/
def isDesc (i j : Nat) : Bool :=
  if j = i then true
  else if j ≤ i then false
  else isDesc i ((j - 1) / 2)
termination_by j
decreasing_by omega

/-- The integer comparator used by the concrete witnesses. -/
def intCmp (a b : Int) : Int :=
  if a < b then -1 else if b < a then 1 else 0

-- *****************************************************************************
-- Generic byte-copying vector (mu_vec.c)

/-- State of a generic vector (`mu_vec_t`): the caller-owned backing store is
modelled by the list of the `count` live elements (`items.length = count`);
`item_size` only scales the byte arithmetic of the source and has no
observable effect in the value model. -/
structure mu_vec_t (α : Type _) where
  items : List α
  capacity : Nat
  deriving DecidableEq, Repr

/-- `mu_vec_capacity`: 0 for a NULL vector. -/
def mu_vec_capacity {α : Type _} (v : Option (mu_vec_t α)) : Nat :=
  match v with
  | some v => v.capacity
  | none => 0

/-- `mu_vec_count`: 0 for a NULL vector. -/
def mu_vec_count {α : Type _} (v : Option (mu_vec_t α)) : Nat :=
  match v with
  | some v => v.items.length
  | none => 0

/-- `mu_vec_is_empty`: a NULL vector is treated as empty. -/
def mu_vec_is_empty {α : Type _} (v : Option (mu_vec_t α)) : Bool :=
  match v with
  | some v => v.items.length = 0
  | none => true

/-- `mu_vec_is_full`: a NULL vector is treated as not full. -/
def mu_vec_is_full {α : Type _} (v : Option (mu_vec_t α)) : Bool :=
  match v with
  | some v => v.items.length ≥ v.capacity
  | none => false

/-- `mu_vec_replace`: overwrite the item at `index`. -/
def mu_vec_replace {α : Type _} (v : Option (mu_vec_t α)) (index : Nat)
    (item_in : Option α) : mu_store_err_t × Option (mu_vec_t α) :=
  match v, item_in with
  | none, _ => (MU_STORE_ERR_PARAM, none)
  | some v, none => (MU_STORE_ERR_PARAM, some v)
  | some v, some item =>
    if index ≥ v.items.length then (MU_STORE_ERR_INDEX, some v)
    else (MU_STORE_ERR_NONE, some { v with items := v.items.set index item })

/-- `mu_vec_swap`: exchange the item at `index` with the caller's buffer
`item_io`.  The middle component is the final content of the caller's buffer
(`none` when `item_io` is NULL). -/
def mu_vec_swap {α : Type _} [Inhabited α] (v : Option (mu_vec_t α)) (index : Nat)
    (item_io : Option α) : mu_store_err_t × Option α × Option (mu_vec_t α) :=
  match v, item_io with
  | none, io => (MU_STORE_ERR_PARAM, io, none)
  | some v, none => (MU_STORE_ERR_PARAM, none, some v)
  | some v, some item =>
    if v.items.length = 0 then (MU_STORE_ERR_EMPTY, some item, some v)
    else if index ≥ v.items.length then (MU_STORE_ERR_INDEX, some item, some v)
    else (MU_STORE_ERR_NONE, some (v.items.getD index default),
      some { v with items := v.items.set index item })

/-- `mu_vec_push`: append at the end. -/
def mu_vec_push {α : Type _} (v : Option (mu_vec_t α)) (item_in : Option α) :
    mu_store_err_t × Option (mu_vec_t α) :=
  match v, item_in with
  | none, _ => (MU_STORE_ERR_PARAM, none)
  | some v, none => (MU_STORE_ERR_PARAM, some v)
  | some v, some item =>
    if mu_vec_is_full (some v) then (MU_STORE_ERR_FULL, some v)
    else (MU_STORE_ERR_NONE, some { v with items := v.items ++ [item] })

/-- `mu_vec_pop`: remove the last item.  The middle component is the value
copied out through `item_out` when one is supplied. -/
def mu_vec_pop {α : Type _} [Inhabited α] (v : Option (mu_vec_t α)) :
    mu_store_err_t × Option α × Option (mu_vec_t α) :=
  match v with
  | none => (MU_STORE_ERR_PARAM, none, none)
  | some v =>
    if mu_vec_is_empty (some v) then (MU_STORE_ERR_EMPTY, none, some v)
    else (MU_STORE_ERR_NONE, some (v.items.getD (v.items.length - 1) default),
      some { v with items := v.items.dropLast })

/-- `mu_vec_insert`: insert at `index`, shifting the tail right (the source's
`index == count` shortcut to `mu_vec_push` yields the same state). -/
def mu_vec_insert {α : Type _} (v : Option (mu_vec_t α)) (index : Nat)
    (item_in : Option α) : mu_store_err_t × Option (mu_vec_t α) :=
  match v, item_in with
  | none, _ => (MU_STORE_ERR_PARAM, none)
  | some v, none => (MU_STORE_ERR_PARAM, some v)
  | some v, some item =>
    if mu_vec_is_full (some v) then (MU_STORE_ERR_FULL, some v)
    else if index > v.items.length then (MU_STORE_ERR_INDEX, some v)
    else (MU_STORE_ERR_NONE,
      some { v with items := v.items.take index ++ item :: v.items.drop index })

/-- `mu_vec_delete`: remove the item at `index`, shifting the tail left.  The
middle component is the value copied out through `item_out` when one is
supplied. -/
def mu_vec_delete {α : Type _} [Inhabited α] (v : Option (mu_vec_t α))
    (index : Nat) : mu_store_err_t × Option α × Option (mu_vec_t α) :=
  match v with
  | none => (MU_STORE_ERR_PARAM, none, none)
  | some v =>
    if mu_vec_is_empty (some v) then (MU_STORE_ERR_EMPTY, none, some v)
    else if index ≥ v.items.length then (MU_STORE_ERR_INDEX, none, some v)
    else (MU_STORE_ERR_NONE, some (v.items.getD index default),
      some { v with items := v.items.take index ++ v.items.drop (index + 1) })

/-- The binary-search loop of `sort_find` (mu_vec.c): lower bound over
`[low, high)`. -/
def sort_find_loop {α : Type _} [Inhabited α] (cmp : α → α → Int) (l : List α)
    (target : α) (low high : Nat) : Nat :=
  if h : low < high then
    let mid := low + (high - low) / 2
    if cmp (l.getD mid default) target < 0 then
      sort_find_loop cmp l target (mid + 1) high
    else
      sort_find_loop cmp l target low mid
  else low
termination_by high - low
decreasing_by all_goals omega

/-- `sort_find` (mu_vec.c): binary search for the lower bound of
`item_to_find`; reports whether an equal element sits at that index.  Its
NULL-parameter checks are discharged by the caller in this model. -/
def sort_find {α : Type _} [Inhabited α] (v : mu_vec_t α)
    (compare_fn : α → α → Int) (item_to_find : α) : mu_store_err_t × Nat :=
  let low := sort_find_loop compare_fn v.items item_to_find 0 v.items.length
  if low < v.items.length ∧ compare_fn (v.items.getD low default) item_to_find = 0 then
    (MU_STORE_ERR_NONE, low)
  else
    (MU_STORE_ERR_NOTFOUND, low)

/-- The run-extension scan used by `mu_vec_sorted_insert` for the LAST-flavored
policies: advance `idx` while the element there compares equal to `item_in`. -/
def scan_run_end {α : Type _} [Inhabited α] (cmp : α → α → Int) (l : List α)
    (item : α) (idx : Nat) : Nat :=
  if h : idx < l.length ∧ cmp (l.getD idx default) item = 0 then
    scan_run_end cmp l item (idx + 1)
  else idx
termination_by l.length - idx
decreasing_by omega

/-- The UPDATE_ALL loop of `mu_vec_sorted_insert`: overwrite each element that
compares equal to `item_in`, starting at the lower bound. -/
def mu_vec_update_all_loop {α : Type _} [Inhabited α] (cmp : α → α → Int)
    (item : α) (l : List α) (idx : Nat) : List α :=
  if h : idx < l.length ∧ cmp (l.getD idx default) item = 0 then
    mu_vec_update_all_loop cmp item (l.set idx item) (idx + 1)
  else l
termination_by l.length - idx
decreasing_by simp; omega

/-- `mu_vec_sorted_insert`: policy-driven insert/update into a vector sorted
ascending by `compare_fn`, using the lower-bound `sort_find`.  The source's
propagation branch for `sort_find` errors other than NOTFOUND is dead in this
model because the caller-side NULL checks have already passed. -/
def mu_vec_sorted_insert {α : Type _} [Inhabited α] (v : Option (mu_vec_t α))
    (item_in : Option α) (compare_fn : Option (α → α → Int))
    (policy : mu_store_insert_policy_t) : mu_store_err_t × Option (mu_vec_t α) :=
  match v, item_in, compare_fn with
  | none, _, _ => (MU_STORE_ERR_PARAM, none)
  | some v, none, _ => (MU_STORE_ERR_PARAM, some v)
  | some v, some _, none => (MU_STORE_ERR_PARAM, some v)
  | some v, some item, some cmp =>
    let fr := sort_find v cmp item
    let found := fr.1 = MU_STORE_ERR_NONE
    let index := fr.2
    match policy with
    | MU_STORE_INSERT_ANY | MU_STORE_INSERT_FIRST =>
      if mu_vec_is_full (some v) then (MU_STORE_ERR_FULL, some v)
      else mu_vec_insert (some v) index (some item)
    | MU_STORE_INSERT_LAST =>
      if mu_vec_is_full (some v) then (MU_STORE_ERR_FULL, some v)
      else
        let insert_idx := if found then scan_run_end cmp v.items item index else index
        mu_vec_insert (some v) insert_idx (some item)
    | MU_STORE_UPDATE_FIRST =>
      if ¬ found then (MU_STORE_ERR_NOTFOUND, some v)
      else mu_vec_replace (some v) index (some item)
    | MU_STORE_UPDATE_LAST =>
      if ¬ found then (MU_STORE_ERR_NOTFOUND, some v)
      else mu_vec_replace (some v) (scan_run_end cmp v.items item index - 1) (some item)
    | MU_STORE_UPDATE_ALL =>
      if ¬ found then (MU_STORE_ERR_NOTFOUND, some v)
      else (MU_STORE_ERR_NONE,
        some { v with items := mu_vec_update_all_loop cmp item v.items index })
    | MU_STORE_UPSERT_FIRST =>
      if found then mu_vec_replace (some v) index (some item)
      else if mu_vec_is_full (some v) then (MU_STORE_ERR_FULL, some v)
      else mu_vec_insert (some v) index (some item)
    | MU_STORE_UPSERT_LAST =>
      if found then
        mu_vec_replace (some v) (scan_run_end cmp v.items item index - 1) (some item)
      else if mu_vec_is_full (some v) then (MU_STORE_ERR_FULL, some v)
      else mu_vec_insert (some v) index (some item)
    | MU_STORE_INSERT_UNIQUE =>
      if found then (MU_STORE_ERR_EXISTS, some v)
      else if mu_vec_is_full (some v) then (MU_STORE_ERR_FULL, some v)
      else mu_vec_insert (some v) index (some item)
    | MU_STORE_INSERT_DUPLICATE =>
      if ¬ found then (MU_STORE_ERR_NOTFOUND, some v)
      else if mu_vec_is_full (some v) then (MU_STORE_ERR_FULL, some v)
      else mu_vec_insert (some v) index (some item)

-- *****************************************************************************
-- Pointer vector (mu_pvec.c)

/-- State of a pointer vector (`mu_pvec_t`): the backing array of `void *`
slots is modelled by the list of the `count` live pointer values; a stored
pointer is a value of the abstract type `α` (instantiate `α := Option β` to
model nullable stored pointers). -/
structure mu_pvec_t (α : Type _) where
  item_store : List α
  capacity : Nat
  deriving DecidableEq, Repr

/-- `mu_pvec_capacity`: 0 for a NULL vector. -/
def mu_pvec_capacity {α : Type _} (v : Option (mu_pvec_t α)) : Nat :=
  match v with
  | some v => v.capacity
  | none => 0

/-- `mu_pvec_count`: 0 for a NULL vector. -/
def mu_pvec_count {α : Type _} (v : Option (mu_pvec_t α)) : Nat :=
  match v with
  | some v => v.item_store.length
  | none => 0

/-- `mu_pvec_is_empty`: a NULL vector is treated as empty. -/
def mu_pvec_is_empty {α : Type _} (v : Option (mu_pvec_t α)) : Bool :=
  match v with
  | some v => v.item_store.length = 0
  | none => true

/-- `mu_pvec_is_full`: a NULL vector is treated as not full. -/
def mu_pvec_is_full {α : Type _} (v : Option (mu_pvec_t α)) : Bool :=
  match v with
  | some v => v.item_store.length ≥ v.capacity
  | none => false

/-- `mu_pvec_insert`: insert a pointer at `index`, shifting the tail right.
The stored pointer value itself is not NULL-checked by the source. -/
def mu_pvec_insert {α : Type _} (v : Option (mu_pvec_t α)) (item : α)
    (index : Nat) : mu_store_err_t × Option (mu_pvec_t α) :=
  match v with
  | none => (MU_STORE_ERR_PARAM, none)
  | some v =>
    if v.item_store.length ≥ v.capacity then (MU_STORE_ERR_FULL, some v)
    else if index > v.item_store.length then (MU_STORE_ERR_INDEX, some v)
    else (MU_STORE_ERR_NONE,
      some { v with item_store := v.item_store.take index ++ item :: v.item_store.drop index })

/-- `mu_pvec_delete`: remove the pointer at `index`, shifting the tail left.
The middle component is the value written through the optional `item` out
pointer. -/
def mu_pvec_delete {α : Type _} [Inhabited α] (v : Option (mu_pvec_t α))
    (index : Nat) : mu_store_err_t × Option α × Option (mu_pvec_t α) :=
  match v with
  | none => (MU_STORE_ERR_PARAM, none, none)
  | some v =>
    if v.item_store.length = 0 then (MU_STORE_ERR_EMPTY, none, some v)
    else if index ≥ v.item_store.length then (MU_STORE_ERR_INDEX, none, some v)
    else (MU_STORE_ERR_NONE, some (v.item_store.getD index default),
      some { v with item_store := v.item_store.take index ++ v.item_store.drop (index + 1) })

/-- `mu_pvec_replace`: overwrite the pointer at `index`. -/
def mu_pvec_replace {α : Type _} (v : Option (mu_pvec_t α)) (item : α)
    (index : Nat) : mu_store_err_t × Option (mu_pvec_t α) :=
  match v with
  | none => (MU_STORE_ERR_PARAM, none)
  | some v =>
    if index ≥ v.item_store.length then (MU_STORE_ERR_INDEX, some v)
    else (MU_STORE_ERR_NONE, some { v with item_store := v.item_store.set index item })

/-- `mu_pvec_push`: append a pointer at the end. -/
def mu_pvec_push {α : Type _} (v : Option (mu_pvec_t α)) (item : α) :
    mu_store_err_t × Option (mu_pvec_t α) :=
  match v with
  | none => (MU_STORE_ERR_PARAM, none)
  | some v =>
    if v.item_store.length ≥ v.capacity then (MU_STORE_ERR_FULL, some v)
    else (MU_STORE_ERR_NONE, some { v with item_store := v.item_store ++ [item] })

/-- `mu_pvec_pop`: remove the last pointer; the out location is required, so
its NULL pointer (`none`) is a parameter error.  The middle component is the
popped value. -/
def mu_pvec_pop {α : Type _} [Inhabited α] (v : Option (mu_pvec_t α))
    (item_out : Option Unit) : mu_store_err_t × Option α × Option (mu_pvec_t α) :=
  match v, item_out with
  | none, _ => (MU_STORE_ERR_PARAM, none, none)
  | some v, none => (MU_STORE_ERR_PARAM, none, some v)
  | some v, some _ =>
    if v.item_store.length = 0 then (MU_STORE_ERR_EMPTY, none, some v)
    else (MU_STORE_ERR_NONE,
      some (v.item_store.getD (v.item_store.length - 1) default),
      some { v with item_store := v.item_store.dropLast })

/-- `find_upper_bound` (mu_pvec.c): binary search for the upper bound
(`low` starts at 0, `high` at `count`); the comparator is applied as
`compare_fn(&item, &store[mid])`. -/
def find_upper_bound_loop {α : Type _} [Inhabited α] (cmp : α → α → Int)
    (l : List α) (item : α) (low high : Nat) : Nat :=
  if h : low < high then
    let mid := low + (high - low) / 2
    if cmp item (l.getD mid default) < 0 then
      find_upper_bound_loop cmp l item low mid
    else
      find_upper_bound_loop cmp l item (mid + 1) high
  else low
termination_by high - low
decreasing_by all_goals omega

/-- `find_first_insertion_point` (mu_pvec.c): scan backwards from the upper
bound while the preceding element compares equal to `item`. -/
def find_first_insertion_point {α : Type _} [Inhabited α] (cmp : α → α → Int)
    (l : List α) (item : α) (insert_pos : Nat) : Nat :=
  if h : insert_pos > 0 ∧ cmp item (l.getD (insert_pos - 1) default) = 0 then
    find_first_insertion_point cmp l item (insert_pos - 1)
  else insert_pos
termination_by insert_pos
decreasing_by omega

/-- `find_first_match_index` (mu_pvec.c): scan backwards from a known match
while the preceding element compares equal to `item`. -/
def find_first_match_index {α : Type _} [Inhabited α] (cmp : α → α → Int)
    (l : List α) (item : α) (first_idx : Nat) : Nat :=
  if h : first_idx > 0 ∧ cmp item (l.getD (first_idx - 1) default) = 0 then
    find_first_match_index cmp l item (first_idx - 1)
  else first_idx
termination_by first_idx
decreasing_by omega

/-- `find_last_match_index` (mu_pvec.c): scan forwards from a known match
while the following element compares equal to `item`.  The source guard is
`last_idx < v->count - 1` in `size_t` arithmetic; every call site guarantees
`count >= 1`, so the `Nat` truncation at `count = 0` is unreachable. -/
def find_last_match_index {α : Type _} [Inhabited α] (cmp : α → α → Int)
    (l : List α) (item : α) (last_idx : Nat) : Nat :=
  if h : last_idx < l.length - 1 ∧ cmp item (l.getD (last_idx + 1) default) = 0 then
    find_last_match_index cmp l item (last_idx + 1)
  else last_idx
termination_by l.length - last_idx
decreasing_by omega

/-- The UPDATE_ALL loop of `mu_pvec_sorted_insert`: overwrite every slot in
`[i, last]` with `item`. -/
def mu_pvec_update_all_loop {α : Type _} (item : α) (l : List α)
    (i last : Nat) : List α :=
  if h : i ≤ last then mu_pvec_update_all_loop item (l.set i item) (i + 1) last
  else l
termination_by last + 1 - i
decreasing_by omega

/-- One slot assignment `v->item_store[idx] = (void*)item` of
`mu_pvec_sorted_insert`. -/
def mu_pvec_assign {α : Type _} (v : mu_pvec_t α) (idx : Nat) (item : α) :
    mu_pvec_t α :=
  { v with item_store := v.item_store.set idx item }

/-- The final shift-and-assign insertion block of `mu_pvec_sorted_insert`. -/
def mu_pvec_do_insert {α : Type _} (v : mu_pvec_t α) (item : α)
    (insert_pos : Nat) : mu_pvec_t α :=
  { v with item_store := v.item_store.take insert_pos ++ item :: v.item_store.drop insert_pos }

/-- `mu_pvec_sorted_insert`: policy-driven insert/update into a pointer
vector sorted ascending by `compare_fn`, built on the upper-bound search. -/
def mu_pvec_sorted_insert {α : Type _} [Inhabited α] (v : Option (mu_pvec_t α))
    (item : Option α) (compare_fn : Option (α → α → Int))
    (policy : mu_store_insert_policy_t) : mu_store_err_t × Option (mu_pvec_t α) :=
  match v, item, compare_fn with
  | none, _, _ => (MU_STORE_ERR_PARAM, none)
  | some v, none, _ => (MU_STORE_ERR_PARAM, some v)
  | some v, some _, none => (MU_STORE_ERR_PARAM, some v)
  | some v, some item, some cmp =>
    let bsearch_pos := find_upper_bound_loop cmp v.item_store item 0 v.item_store.length
    let match_exists := bsearch_pos > 0 ∧
      cmp item (v.item_store.getD (bsearch_pos - 1) default) = 0
    let potential_match_idx := if match_exists then bsearch_pos - 1 else 0
    match policy with
    | MU_STORE_INSERT_ANY | MU_STORE_INSERT_LAST =>
      if v.item_store.length ≥ v.capacity then (MU_STORE_ERR_FULL, some v)
      else (MU_STORE_ERR_NONE, some (mu_pvec_do_insert v item bsearch_pos))
    | MU_STORE_INSERT_FIRST =>
      if v.item_store.length ≥ v.capacity then (MU_STORE_ERR_FULL, some v)
      else (MU_STORE_ERR_NONE, some (mu_pvec_do_insert v item
        (find_first_insertion_point cmp v.item_store item bsearch_pos)))
    | MU_STORE_UPDATE_FIRST =>
      if ¬ match_exists then (MU_STORE_ERR_NOTFOUND, some v)
      else (MU_STORE_ERR_NONE, some (mu_pvec_assign v
        (find_first_match_index cmp v.item_store item potential_match_idx) item))
    | MU_STORE_UPDATE_LAST =>
      if ¬ match_exists then (MU_STORE_ERR_NOTFOUND, some v)
      else (MU_STORE_ERR_NONE, some (mu_pvec_assign v
        (find_last_match_index cmp v.item_store item potential_match_idx) item))
    | MU_STORE_UPDATE_ALL =>
      if ¬ match_exists then (MU_STORE_ERR_NOTFOUND, some v)
      else (MU_STORE_ERR_NONE, some { v with
        item_store := mu_pvec_update_all_loop item v.item_store
          (find_first_match_index cmp v.item_store item potential_match_idx)
          (find_last_match_index cmp v.item_store item potential_match_idx) })
    | MU_STORE_UPSERT_FIRST =>
      if match_exists then
        (MU_STORE_ERR_NONE, some (mu_pvec_assign v
          (find_first_match_index cmp v.item_store item potential_match_idx) item))
      else if v.item_store.length ≥ v.capacity then (MU_STORE_ERR_FULL, some v)
      else (MU_STORE_ERR_NONE, some (mu_pvec_do_insert v item
        (find_first_insertion_point cmp v.item_store item bsearch_pos)))
    | MU_STORE_UPSERT_LAST =>
      if match_exists then
        (MU_STORE_ERR_NONE, some (mu_pvec_assign v
          (find_last_match_index cmp v.item_store item potential_match_idx) item))
      else if v.item_store.length ≥ v.capacity then (MU_STORE_ERR_FULL, some v)
      else (MU_STORE_ERR_NONE, some (mu_pvec_do_insert v item bsearch_pos))
    | MU_STORE_INSERT_UNIQUE =>
      if match_exists then (MU_STORE_ERR_EXISTS, some v)
      else if v.item_store.length ≥ v.capacity then (MU_STORE_ERR_FULL, some v)
      else (MU_STORE_ERR_NONE, some (mu_pvec_do_insert v item bsearch_pos))
    | MU_STORE_INSERT_DUPLICATE =>
      if ¬ match_exists then (MU_STORE_ERR_NOTFOUND, some v)
      else if v.item_store.length ≥ v.capacity then (MU_STORE_ERR_FULL, some v)
      else (MU_STORE_ERR_NONE, some (mu_pvec_do_insert v item bsearch_pos))

-- *****************************************************************************
-- Circular queues (mu_queue.c)

/-- State of a generic circular queue (`mu_queue_t`): the backing store is a
list of exactly `capacity` record slots; `count` live records sit in the
circular range `[head, tail)`.  `item_size` only scales byte arithmetic. -/
structure mu_queue_t (α : Type _) where
  items : List α
  capacity : Nat
  count : Nat
  head : Nat
  tail : Nat
  deriving DecidableEq, Repr

/-- `mu_queue_init`: record the backing store, reset indices.  Fails (NULL)
when the queue, the store, the capacity, or the item size is absent/zero.
The caller supplies `n_items` slots, so `n_items` is the store length; the
non-zero `item_size` check is kept as an explicit argument. -/
def mu_queue_init {α : Type _} (q : Option (mu_queue_t α))
    (backing_store : Option (List α)) (item_size : Nat) :
    Option (mu_queue_t α) :=
  match q, backing_store with
  | none, _ => none
  | some _, none => none
  | some _, some store =>
    if store.length = 0 ∨ item_size = 0 then none
    else some ⟨store, store.length, 0, 0, 0⟩

/-- `mu_queue_capacity`: 0 for a NULL queue. -/
def mu_queue_capacity {α : Type _} (q : Option (mu_queue_t α)) : Nat :=
  match q with
  | some q => q.capacity
  | none => 0

/-- `mu_queue_count`: 0 for a NULL queue. -/
def mu_queue_count {α : Type _} (q : Option (mu_queue_t α)) : Nat :=
  match q with
  | some q => q.count
  | none => 0

/-- `mu_queue_is_empty`: `q == NULL || q->count == 0`. -/
def mu_queue_is_empty {α : Type _} (q : Option (mu_queue_t α)) : Bool :=
  match q with
  | some q => q.count = 0
  | none => true

/-- `mu_queue_is_full`: `q == NULL || q->count >= q->capacity`. -/
def mu_queue_is_full {α : Type _} (q : Option (mu_queue_t α)) : Bool :=
  match q with
  | some q => q.count ≥ q.capacity
  | none => true

/-- `mu_queue_put`: copy the item into the tail slot, advance `tail`
circularly, bump `count`. -/
def mu_queue_put {α : Type _} (q : Option (mu_queue_t α)) (item_in : Option α) :
    mu_store_err_t × Option (mu_queue_t α) :=
  match q, item_in with
  | none, _ => (MU_STORE_ERR_PARAM, none)
  | some q, none => (MU_STORE_ERR_PARAM, some q)
  | some q, some item =>
    if mu_queue_is_full (some q) then (MU_STORE_ERR_FULL, some q)
    else (MU_STORE_ERR_NONE, some { q with
      items := q.items.set q.tail item,
      tail := (q.tail + 1) % q.capacity,
      count := q.count + 1 })

/-- `mu_queue_get`: copy the head slot out (when `item_out` is supplied),
advance `head` circularly, decrement `count`.  The middle component is the
value copied out. -/
def mu_queue_get {α : Type _} [Inhabited α] (q : Option (mu_queue_t α)) :
    mu_store_err_t × Option α × Option (mu_queue_t α) :=
  match q with
  | none => (MU_STORE_ERR_PARAM, none, none)
  | some q =>
    if mu_queue_is_empty (some q) then (MU_STORE_ERR_EMPTY, none, some q)
    else (MU_STORE_ERR_NONE, some (q.items.getD q.head default),
      some { q with
        head := (q.head + 1) % q.capacity,
        count := q.count - 1 })

/-- State of a pointer circular queue (`mu_pqueue_t`). -/
structure mu_pqueue_t (α : Type _) where
  items : List α
  capacity : Nat
  count : Nat
  head : Nat
  tail : Nat
  deriving DecidableEq, Repr

/-- `mu_pqueue_capacity`: 0 for a NULL queue. -/
def mu_pqueue_capacity {α : Type _} (q : Option (mu_pqueue_t α)) : Nat :=
  match q with
  | some q => q.capacity
  | none => 0

/-- `mu_pqueue_count`: 0 for a NULL queue. -/
def mu_pqueue_count {α : Type _} (q : Option (mu_pqueue_t α)) : Nat :=
  match q with
  | some q => q.count
  | none => 0

/-- `mu_pqueue_is_empty`: `q == NULL || q->count == 0`. -/
def mu_pqueue_is_empty {α : Type _} (q : Option (mu_pqueue_t α)) : Bool :=
  match q with
  | some q => q.count = 0
  | none => true

/-- `mu_pqueue_is_full`: `q == NULL || q->count >= q->capacity`. -/
def mu_pqueue_is_full {α : Type _} (q : Option (mu_pqueue_t α)) : Bool :=
  match q with
  | some q => q.count ≥ q.capacity
  | none => true

/-- `mu_pqueue_put`: store the pointer value in the tail slot (a NULL item is
allowed), advance `tail` circularly, bump `count`. -/
def mu_pqueue_put {α : Type _} (q : Option (mu_pqueue_t α)) (item_in : α) :
    mu_store_err_t × Option (mu_pqueue_t α) :=
  match q with
  | none => (MU_STORE_ERR_PARAM, none)
  | some q =>
    if mu_pqueue_is_full (some q) then (MU_STORE_ERR_FULL, some q)
    else (MU_STORE_ERR_NONE, some { q with
      items := q.items.set q.tail item_in,
      tail := (q.tail + 1) % q.capacity,
      count := q.count + 1 })

/-- `mu_pqueue_get`: copy the head pointer out (the out location is required),
advance `head` circularly, decrement `count`. -/
def mu_pqueue_get {α : Type _} [Inhabited α] (q : Option (mu_pqueue_t α))
    (item_out : Option Unit) : mu_store_err_t × Option α × Option (mu_pqueue_t α) :=
  match q, item_out with
  | none, _ => (MU_STORE_ERR_PARAM, none, none)
  | some q, none => (MU_STORE_ERR_PARAM, none, some q)
  | some q, some _ =>
    if mu_pqueue_is_empty (some q) then (MU_STORE_ERR_EMPTY, none, some q)
    else (MU_STORE_ERR_NONE, some (q.items.getD q.head default),
      some { q with
        head := (q.head + 1) % q.capacity,
        count := q.count - 1 })

-- *****************************************************************************
-- Resource pool (mu_pool.c)

/-- Machine pointer word size (`sizeof(void *)`), for an LP64 target. -/
def mu_pool_ptr_size : Nat := 8

/-- State of a resource pool (`mu_pool_t`).  Storage addresses are modelled as
flat-memory naturals with 0 for NULL; `item_store` is the base address of the
backing array.  The intrusive free list threaded through the free slots is
modelled by the list of free slot addresses, head first. -/
structure mu_pool_t where
  item_store : Nat
  free_list : List Nat
  item_size : Nat
  n_items : Nat
  deriving DecidableEq, Repr

/-- `mu_pool_free`: push an item onto the free list; a NULL item is an error
and leaves the pool untouched. -/
def mu_pool_free (pool : mu_pool_t) (item : Nat) : Option mu_pool_t :=
  if item = 0 then none
  else some { pool with free_list := item :: pool.free_list }

/-- The slot-freeing loop of `mu_pool_reset`
(`for (i = 0; i < n_items; i++) mu_pool_free(pool, &items[i * item_size])`);
the loop ignores `mu_pool_free`'s result, so a failed free (NULL slot
address) leaves the pool as it was. -/
def mu_pool_reset_loop (pool : mu_pool_t) (i : Nat) : mu_pool_t :=
  if h : i < pool.n_items then
    mu_pool_reset_loop
      ((mu_pool_free pool (pool.item_store + i * pool.item_size)).getD pool)
      (i + 1)
  else pool
termination_by pool.n_items - i
decreasing_by
  simp only [mu_pool_free]
  split <;> simp <;> omega

/-- `mu_pool_reset`: empty the free list, then free every slot in order. -/
def mu_pool_reset (pool : mu_pool_t) : mu_pool_t :=
  mu_pool_reset_loop { pool with free_list := [] } 0

/-- `mu_pool_init`: record the storage reference and geometry and rebuild the
free list.  The only rejections are an item size smaller than one pointer
word and a NULL pool struct; the storage pointer and the item count are not
validated. -/
def mu_pool_init (pool : Option mu_pool_t) (item_store : Nat) (n_items : Nat)
    (item_size : Nat) : Option mu_pool_t :=
  if item_size < mu_pool_ptr_size then none
  else
    match pool with
    | none => none
    | some _ => some (mu_pool_reset ⟨item_store, [], item_size, n_items⟩)

/-- Comparator on pairs keyed by the first component; the second component is
a distinguishing payload. -/
def pairCmp (a b : Int × Int) : Int := intCmp a.1 b.1

-- *****************************************************************************
-- Theorems

theorem CmpConsistent.le_refl {α : Type _} {cmp : α → α → Int}
    (hc : CmpConsistent cmp) (x : α) : cmp x x ≤ 0 := by
  by_contra h
  exact h ((hc.1 x x).mpr (le_of_lt (lt_of_not_le h)))

theorem CmpConsistent.flip_le {α : Type _} {cmp : α → α → Int}
    (hc : CmpConsistent cmp) {x y : α} (h : cmp x y ≤ 0) : 0 ≤ cmp y x :=
  (hc.1 x y).mp h

theorem CmpConsistent.flip_ge {α : Type _} {cmp : α → α → Int}
    (hc : CmpConsistent cmp) {x y : α} (h : 0 ≤ cmp x y) : cmp y x ≤ 0 :=
  (hc.1 y x).mpr h

theorem CmpConsistent.flip_lt {α : Type _} {cmp : α → α → Int}
    (hc : CmpConsistent cmp) {x y : α} (h : cmp x y < 0) : 0 < cmp y x := by
  rcases lt_or_le 0 (cmp y x) with h' | h'
  · exact h'
  · have := (hc.1 y x).mp h'
    omega

theorem CmpConsistent.eq_symm {α : Type _} {cmp : α → α → Int}
    (hc : CmpConsistent cmp) {x y : α} (h : cmp x y = 0) : cmp y x = 0 := by
  have h1 : 0 ≤ cmp y x := hc.flip_le (le_of_eq h)
  have h2 : cmp y x ≤ 0 := hc.flip_ge (ge_of_eq h)
  omega

theorem CmpConsistent.le_trans {α : Type _} {cmp : α → α → Int}
    (hc : CmpConsistent cmp) {x y z : α} (h1 : cmp x y ≤ 0) (h2 : cmp y z ≤ 0) :
    cmp x z ≤ 0 :=
  hc.2 x y z h1 h2

theorem CmpConsistent.le_lt_trans {α : Type _} {cmp : α → α → Int}
    (hc : CmpConsistent cmp) {x y z : α} (h1 : cmp x y ≤ 0) (h2 : cmp y z < 0) :
    cmp x z < 0 := by
  by_contra h
  have h3 : cmp z x ≤ 0 := hc.flip_ge (by omega)
  have h4 : cmp z y ≤ 0 := hc.le_trans h3 h1
  have h5 : 0 ≤ cmp y z := hc.flip_le h4
  omega

theorem CmpConsistent.lt_le_trans {α : Type _} {cmp : α → α → Int}
    (hc : CmpConsistent cmp) {x y z : α} (h1 : cmp x y < 0) (h2 : cmp y z ≤ 0) :
    cmp x z < 0 := by
  by_contra h
  have h3 : cmp z x ≤ 0 := hc.flip_ge (by omega)
  have h4 : cmp y x ≤ 0 := hc.le_trans h2 h3
  have h5 : 0 ≤ cmp x y := hc.flip_le h4
  omega

theorem CmpConsistent.lt_of_flip_pos {α : Type _} {cmp : α → α → Int}
    (hc : CmpConsistent cmp) {x y : α} (h : 0 < cmp x y) : cmp y x < 0 := by
  by_contra h'
  have := hc.flip_ge (by omega : (0 : Int) ≤ cmp y x)
  omega

theorem SortedBy.le_of_index {α : Type _} {cmp : α → α → Int} {l : List α}
    (hs : SortedBy cmp l) {i j : Nat} (hij : i ≤ j) (hj : j < l.length)
    (hc : CmpConsistent cmp) (d : α) :
    cmp (l.getD i d) (l.getD j d) ≤ 0 := by
  have hi : i < l.length := lt_of_le_of_lt hij hj
  rw [l.getD_eq_getElem d hi, l.getD_eq_getElem d hj]
  rcases Nat.lt_or_ge i j with h | h
  · exact (List.pairwise_iff_getElem.mp hs) i j hi hj h
  · have : i = j := le_antisymm hij h
    subst this
    exact hc.le_refl _

theorem land_eq_of_le_mask {k x mask : Nat} (hm : mask + 1 = 2 ^ k)
    (hx : x ≤ mask) : x &&& mask = x := by
  have h1 : mask = 2 ^ k - 1 := by omega
  have h2 : x &&& mask = x % 2 ^ k := by
    rw [h1]
    exact Nat.and_pow_two_sub_one_eq_mod x k
  rw [h2, Nat.mod_eq_of_lt (by omega)]

theorem mu_spsc_put_all_no_wrap {β : Type _} {k : Nat} (mask : Nat)
    (hm : mask + 1 = 2 ^ k) (s : List (Option β)) (hs : s.length = mask + 1)
    (t : Nat) (xs : List (Option β)) (ht : t + xs.length ≤ mask) :
    ∃ s' : List (Option β),
      mu_spsc_put_all ⟨s, mask, 0, t⟩ xs
        = (List.replicate xs.length MU_SPSC_ERR_NONE, ⟨s', mask, 0, t + xs.length⟩) ∧
      s'.length = s.length ∧
      (∀ j, j < t → s'.getD j none = s.getD j none) ∧
      (∀ j, j < xs.length → s'.getD (t + j) none = xs.getD j none) := by
  induction xs generalizing s t with
  | nil =>
    exact ⟨s, by simp [mu_spsc_put_all], rfl, fun j _ => rfl, fun j hj => absurd hj (by simp)⟩
  | cons x xs ih =>
    have hxlen : (x :: xs).length = xs.length + 1 := rfl
    have hnt : (t + 1) &&& mask = t + 1 :=
      land_eq_of_le_mask hm (by simp at ht; omega)
    have hput : mu_spsc_put (⟨s, mask, 0, t⟩ : mu_spsc_t β) x
        = (MU_SPSC_ERR_NONE, ⟨s.set t x, mask, 0, t + 1⟩) := by
      simp only [mu_spsc_put, hnt]
      rw [if_neg (by omega)]
    obtain ⟨s', hrun, hlen, hlow, hhigh⟩ :=
      ih (s.set t x) (by simp [hs]) (t + 1) (by simp at ht ⊢; omega)
    refine ⟨s', ?_, by simpa using hlen, ?_, ?_⟩
    · simp only [mu_spsc_put_all, hput, hrun, hxlen, List.replicate_succ]
      have : t + 1 + xs.length = t + (xs.length + 1) := by omega
      rw [this]
    · intro j hj
      rw [hlow j (by omega)]
      have htlen : t < s.length := by simp at ht; omega
      rw [List.getD_eq_getElem _ _ (by simpa using (by omega : j < s.length)),
        List.getD_eq_getElem _ _ (by omega : j < s.length)]
      simp [List.getElem_set, Nat.ne_of_gt hj]
    · intro j hj
      match j with
      | 0 =>
        have htlen : t < s.length := by simp at ht; omega
        rw [Nat.add_zero, hlow t (by omega),
          List.getD_eq_getElem _ _ (by simpa using htlen)]
        simp [List.getElem_set]
      | j + 1 =>
        have : t + (j + 1) = t + 1 + j := by omega
        rw [this, hhigh j (by simp at hj; omega)]
        simp

theorem mu_spsc_get_all_no_wrap {β : Type _} {k : Nat} (mask : Nat)
    (hm : mask + 1 = 2 ^ k) (s : List (Option β)) (h n : Nat)
    (m : Nat) (hhm : h + m ≤ n) (hn : n ≤ mask) :
    mu_spsc_get_all ⟨s, mask, h, n⟩ m
      = ((List.range m).map (fun j => (MU_SPSC_ERR_NONE, s.getD (h + j) none)),
         ⟨s, mask, h + m, n⟩) := by
  induction m generalizing h with
  | zero => simp [mu_spsc_get_all]
  | succ m ih =>
    have hne : h ≠ n := by omega
    have hh1 : (h + 1) &&& mask = h + 1 := land_eq_of_le_mask hm (by omega)
    have hget : mu_spsc_get (⟨s, mask, h, n⟩ : mu_spsc_t β)
        = (MU_SPSC_ERR_NONE, s.getD h none, ⟨s, mask, h + 1, n⟩) := by
      simp only [mu_spsc_get, hh1]
      rw [if_neg hne]
    rw [mu_spsc_get_all, hget]
    simp only
    rw [ih (h + 1) (by omega)]
    refine Prod.ext ?_ (by simp; omega)
    simp only [List.range_succ_eq_map, List.map_cons, List.map_map]
    refine List.cons_eq_cons.mpr ⟨by simp, ?_⟩
    apply List.map_congr_left
    intro j _
    simp [Function.comp]
    congr 2
    omega

/-- **C1**: for an SPSC ring buffer initialized over a power-of-two store of
length `L >= 2`, any single-threaded sequence of at most `L - 1` puts followed
by the same number of gets succeeds throughout and returns exactly the items
put, in FIFO order; moreover a put attempted when `(tail + 1) & mask == head`
returns the Full error leaving the state (head, tail, store) unchanged, and a
get attempted when `head == tail` returns the Empty error leaving the state
unchanged. -/
theorem mu_spsc_fifo_roundtrip {β : Type _} (store : List (Option β)) (k : Nat)
    (hpow : store.length = 2 ^ k) (h2 : 2 ≤ store.length)
    (xs : List (Option β)) (hxs : xs.length ≤ store.length - 1) :
    (∃ q0 : mu_spsc_t β,
      mu_spsc_init store = (MU_SPSC_ERR_NONE, some q0) ∧
      (mu_spsc_put_all q0 xs).1 = List.replicate xs.length MU_SPSC_ERR_NONE ∧
      (mu_spsc_get_all (mu_spsc_put_all q0 xs).2 xs.length).1
        = xs.map (fun x => (MU_SPSC_ERR_NONE, x))) ∧
    (∀ (q : mu_spsc_t β) (it : Option β),
      (q.tail + 1) &&& q.mask = q.head → mu_spsc_put q it = (MU_SPSC_ERR_FULL, q)) ∧
    (∀ q : mu_spsc_t β,
      q.head = q.tail → mu_spsc_get q = (MU_SPSC_ERR_EMPTY, none, q)) := by
  refine ⟨?_, ?_, ?_⟩
  · have hmask : (store.length - 1) + 1 = 2 ^ k := by omega
    have hland : store.length &&& (store.length - 1) = 0 := by
      have := Nat.and_pow_two_sub_one_eq_mod store.length k
      rw [hpow] at this ⊢
      rw [this]
      exact Nat.mod_self _
    have hinit : mu_spsc_init store
        = (MU_SPSC_ERR_NONE, some ⟨store, store.length - 1, 0, 0⟩) := by
      rw [mu_spsc_init, if_neg (by push_neg; exact ⟨by omega, hland⟩)]
      rfl
    obtain ⟨s', hrun, hlen, _, hvals⟩ :=
      mu_spsc_put_all_no_wrap (store.length - 1) hmask store (by omega) 0 xs
        (by omega)
    refine ⟨⟨store, store.length - 1, 0, 0⟩, hinit, ?_, ?_⟩
    · rw [hrun]
    · rw [hrun]
      simp only
      rw [mu_spsc_get_all_no_wrap (store.length - 1) hmask s' 0 (0 + xs.length)
        xs.length (by omega) (by omega)]
      simp only
      apply List.ext_getElem (by simp)
      intro i hi1 hi2
      simp only [List.getElem_map, List.getElem_range]
      have h0 : s'.getD (0 + i) none = xs.getD i none := hvals i (by simpa using hi1)
      rw [h0, List.getD_eq_getElem _ _ (by simpa using hi2)]
  · intro q it hfull
    simp [mu_spsc_put, hfull]
  · intro q hempty
    simp [mu_spsc_get, hempty]

/-- Concrete witness for `mu_spsc_fifo_roundtrip`: a store of length 4
(capacity 3) and three puts followed by three gets. -/
theorem mu_spsc_fifo_roundtrip_witness :
    (List.length ([some 10, some 20, some 30] : List (Option Int)) ≤
      List.length ([none, none, none, none] : List (Option Int)) - 1) ∧
    (∃ q0 : mu_spsc_t Int,
      mu_spsc_init ([none, none, none, none] : List (Option Int))
        = (MU_SPSC_ERR_NONE, some q0) ∧
      (mu_spsc_put_all q0 [some 10, some 20, some 30]).1
        = List.replicate 3 MU_SPSC_ERR_NONE ∧
      (mu_spsc_get_all (mu_spsc_put_all q0 [some 10, some 20, some 30]).2 3).1
        = ([some 10, some 20, some 30] : List (Option Int)).map
            (fun x => (MU_SPSC_ERR_NONE, x))) := by
  refine ⟨by decide, ?_⟩
  have h := mu_spsc_fifo_roundtrip
    ([none, none, none, none] : List (Option Int)) 2
    (by decide) (by decide) [some 10, some 20, some 30] (by decide)
  exact h.1

/-- **C10**: on an empty SPSC buffer (`head == tail`), `mu_spsc_get` writes
NULL through the `item_out` pointer and returns the Empty error, leaving the
state unchanged: the caller's output location is overwritten even though the
call fails. -/
theorem mu_spsc_get_empty_writes_null {β : Type _} (q : mu_spsc_t β)
    (hempty : q.head = q.tail) :
    mu_spsc_get q = (MU_SPSC_ERR_EMPTY, none, q) := by
  simp [mu_spsc_get, hempty]

/-- Concrete witness for `mu_spsc_get_empty_writes_null`. -/
theorem mu_spsc_get_empty_writes_null_witness :
    mu_spsc_get (⟨[none, none], 1, 0, 0⟩ : mu_spsc_t Int)
      = (MU_SPSC_ERR_EMPTY, none, ⟨[none, none], 1, 0, 0⟩) :=
  mu_spsc_get_empty_writes_null _ rfl

theorem swap_items_length {α : Type _} [Inhabited α] (l : List α) (i j : Nat) :
    (swap_items l i j).length = l.length := by
  simp [swap_items]

set_option linter.unreachableTactic false in
set_option linter.unusedTactic false in
theorem getElem_swap_items {α : Type _} [Inhabited α] {l : List α} {i j : Nat}
    (hi : i < l.length) (hj : j < l.length) (m : Nat) (hm : m < l.length)
    (hm2 : m < (swap_items l i j).length) :
    (swap_items l i j)[m]
      = if m = j then l[i] else if m = i then l[j] else l[m] := by
  simp only [swap_items, List.getElem_set,
    List.getD_eq_getElem l default hi, List.getD_eq_getElem l default hj]
  split_ifs <;> first | rfl | (subst_vars; rfl) | omega

theorem getD_swap_items {α : Type _} [Inhabited α] {l : List α} {i j : Nat}
    (hi : i < l.length) (hj : j < l.length) (m : Nat) :
    (swap_items l i j).getD m default
      = if m < l.length then
          (if m = j then l.getD i default else if m = i then l.getD j default
           else l.getD m default)
        else default := by
  rcases Nat.lt_or_ge m l.length with hm | hm
  · rw [List.getD_eq_getElem _ default (by simp [swap_items]; omega),
      if_pos hm, getElem_swap_items hi hj m hm (by simp [swap_items]; omega)]
    rw [List.getD_eq_getElem l default hi, List.getD_eq_getElem l default hj,
      List.getD_eq_getElem l default hm]
  · rw [if_neg (by omega)]
    rw [List.getD_eq_default _ default (by simp [swap_items]; omega)]

set_option linter.unreachableTactic false in
set_option linter.unusedTactic false in
theorem swap_items_perm {α : Type _} [Inhabited α] (l : List α) {i j : Nat}
    (hi : i < l.length) (hj : j < l.length) :
    (swap_items l i j).Perm l := by
  classical
  rw [List.perm_iff_count]
  intro b
  have hj' : j < (l.set i (l.getD j default)).length := by simpa using hj
  have hset_i : (l.set i (l.getD j default))[j] = l.getD j default
      ∨ (l.set i (l.getD j default))[j] = l[j] := by
    rw [List.getElem_set]
    split
    · exact Or.inl rfl
    · exact Or.inr rfl
  rw [swap_items, List.count_set _ _ _ _ hj', List.count_set _ _ _ _ hi]
  have hgj : (l.set i (l.getD j default))[j] = l.getD j default := by
    rw [List.getElem_set]
    split
    · rfl
    · exact (List.getD_eq_getElem l default hj).symm
  rw [hgj, List.getD_eq_getElem l default hi, List.getD_eq_getElem l default hj]
  have hcnt_i : l[i] ∈ l := List.getElem_mem hi
  have hcnt_j : l[j] ∈ l := List.getElem_mem hj
  have h1 : (l[i] == b) = true → 1 ≤ l.count b := by
    intro h
    have : l[i] = b := by simpa using h
    subst this
    exact List.one_le_count_iff.mpr hcnt_i
  have h2 : (l[j] == b) = true → 1 ≤ l.count b := by
    intro h
    have : l[j] = b := by simpa using h
    subst this
    exact List.one_le_count_iff.mpr hcnt_j
  split <;> split <;> simp_all <;> omega

theorem heapify_largest_range {α : Type _} [Inhabited α] (cmp : α → α → Int)
    (l : List α) (n i : Nat) :
    heapify_largest cmp l n i = i ∨
      (i < heapify_largest cmp l n i ∧ heapify_largest cmp l n i < n) := by
  simp only [heapify_largest]
  split_ifs <;> omega

theorem isDesc_refl (i : Nat) : isDesc i i = true := by
  rw [isDesc]
  simp

theorem isDesc_ge {i j : Nat} (h : isDesc i j = true) : i ≤ j := by
  induction j using Nat.strong_induction_on with
  | _ j ih =>
    rw [isDesc] at h
    split at h
    · omega
    · split at h
      · exact absurd h (by simp)
      · have := ih ((j - 1) / 2) (by omega) h
        omega

theorem isDesc_child {i p c : Nat} (hp : isDesc i p = true)
    (hc : c = 2 * p + 1 ∨ c = 2 * p + 2) : isDesc i c = true := by
  have hpi : i ≤ p := isDesc_ge hp
  rw [isDesc]
  have hci : ¬ c = i := by omega
  have hci' : ¬ c ≤ i := by omega
  rw [if_neg hci, if_neg hci']
  have : (c - 1) / 2 = p := by omega
  rw [this]
  exact hp

theorem isDesc_trans {i m j : Nat} (h1 : isDesc i m = true)
    (h2 : isDesc m j = true) : isDesc i j = true := by
  induction j using Nat.strong_induction_on with
  | _ j ih =>
    rw [isDesc] at h2
    split at h2
    · subst ‹j = m›
      exact h1
    · split at h2
      · exact absurd h2 (by simp)
      · have him : i ≤ m := isDesc_ge h1
        have hrec : isDesc i ((j - 1) / 2) = true := ih ((j - 1) / 2) (by omega) h2
        rw [isDesc]
        have : ¬ j = i := by omega
        rw [if_neg this, if_neg (by omega)]
        exact hrec

theorem isDesc_not_child {i p c : Nat} (hip : isDesc i p = false) (hic : i < c)
    (hc : c = 2 * p + 1 ∨ c = 2 * p + 2) : isDesc i c = false := by
  rw [isDesc]
  rw [if_neg (by omega), if_neg (by omega)]
  have : (c - 1) / 2 = p := by omega
  rw [this]
  exact hip

theorem isDesc_zero (j : Nat) : isDesc 0 j = true := by
  induction j using Nat.strong_induction_on with
  | _ j ih =>
    rw [isDesc]
    split
    · rfl
    · rw [if_neg (by omega)]
      exact ih ((j - 1) / 2) (by omega)

/-- Case analysis on the `largest` selection of one `heapify` step: either it
stays at the root and both in-bounds children compare `<= 0` against it, or it
moves to an in-bounds child that compares strictly greater than the root and
at least as great as the other in-bounds child. -/
theorem heapify_largest_cases {α : Type _} [Inhabited α] {cmp : α → α → Int}
    (hc : CmpConsistent cmp) (l : List α) (n i : Nat) :
    (heapify_largest cmp l n i = i ∧
      (∀ c, (c = 2 * i + 1 ∨ c = 2 * i + 2) → c < n →
        cmp (l.getD c default) (l.getD i default) ≤ 0)) ∨
    (heapify_largest cmp l n i ≠ i ∧
      (heapify_largest cmp l n i = 2 * i + 1 ∨ heapify_largest cmp l n i = 2 * i + 2) ∧
      heapify_largest cmp l n i < n ∧
      cmp (l.getD i default) (l.getD (heapify_largest cmp l n i) default) < 0 ∧
      (∀ c, (c = 2 * i + 1 ∨ c = 2 * i + 2) → c < n →
        cmp (l.getD c default) (l.getD (heapify_largest cmp l n i) default) ≤ 0)) := by
  simp only [heapify_largest]
  by_cases h1 : 2 * i + 1 < n ∧ 0 < cmp (l.getD (2 * i + 1) default) (l.getD i default)
  · rw [if_pos h1]
    by_cases h2 : 2 * i + 2 < n ∧
        0 < cmp (l.getD (2 * i + 2) default) (l.getD (2 * i + 1) default)
    · rw [if_pos h2]
      refine Or.inr ⟨by omega, Or.inr rfl, h2.1, ?_, ?_⟩
      · have ha : cmp (l.getD i default) (l.getD (2 * i + 1) default) < 0 :=
          hc.lt_of_flip_pos h1.2
        have hb : cmp (l.getD (2 * i + 1) default) (l.getD (2 * i + 2) default) < 0 :=
          hc.lt_of_flip_pos h2.2
        exact hc.lt_le_trans ha (le_of_lt hb)
      · intro c hcc _
        rcases hcc with rfl | rfl
        · exact le_of_lt (hc.lt_of_flip_pos h2.2)
        · exact hc.le_refl _
    · rw [if_neg h2]
      refine Or.inr ⟨by omega, Or.inl rfl, h1.1, ?_, ?_⟩
      · exact hc.lt_of_flip_pos h1.2
      · intro c hcc hcn
        rcases hcc with rfl | rfl
        · exact hc.le_refl _
        · have : ¬ 0 < cmp (l.getD (2 * i + 2) default) (l.getD (2 * i + 1) default) := by
            intro hx
            exact h2 ⟨hcn, hx⟩
          omega
  · rw [if_neg h1]
    by_cases h2 : 2 * i + 2 < n ∧ 0 < cmp (l.getD (2 * i + 2) default) (l.getD i default)
    · rw [if_pos h2]
      refine Or.inr ⟨by omega, Or.inr rfl, h2.1, ?_, ?_⟩
      · exact hc.lt_of_flip_pos h2.2
      · intro c hcc hcn
        rcases hcc with rfl | rfl
        · have hle : cmp (l.getD (2 * i + 1) default) (l.getD i default) ≤ 0 := by
            have : ¬ 0 < cmp (l.getD (2 * i + 1) default) (l.getD i default) := by
              intro hx
              exact h1 ⟨hcn, hx⟩
            omega
          have hlt : cmp (l.getD i default) (l.getD (2 * i + 2) default) < 0 :=
            hc.lt_of_flip_pos h2.2
          exact le_of_lt (hc.le_lt_trans hle hlt)
        · exact hc.le_refl _
    · rw [if_neg h2]
      refine Or.inl ⟨rfl, ?_⟩
      intro c hcc hcn
      rcases hcc with rfl | rfl
      · have : ¬ 0 < cmp (l.getD (2 * i + 1) default) (l.getD i default) := by
          intro hx
          exact h1 ⟨hcn, hx⟩
        omega
      · have : ¬ 0 < cmp (l.getD (2 * i + 2) default) (l.getD i default) := by
          intro hx
          exact h2 ⟨hcn, hx⟩
        omega

theorem isDesc_false_of_lt {i j : Nat} (h : j < i) : isDesc i j = false := by
  cases hd : isDesc i j with
  | false => rfl
  | true => exact absurd (isDesc_ge hd) (by omega)

/-- Correctness of one full sift-down (`heapify`): assuming every strict
descendant of `i` already satisfies the max-heap edge property within the
first `n` slots, `heapify` permutes the list, touches only slots of the
subtree of `i` below `n`, establishes the heap edge property on the whole
subtree of `i`, and leaves at slot `i` either its old value or the old value
of one of its children. -/
theorem heapify_spec {α : Type _} [Inhabited α] {cmp : α → α → Int}
    (hc : CmpConsistent cmp) :
    ∀ (d : Nat) (l : List α) (n i : Nat), n - i ≤ d → n ≤ l.length →
    (∀ p c, isDesc i p = true → p ≠ i → c < n → (c = 2 * p + 1 ∨ c = 2 * p + 2) →
        cmp (l.getD c default) (l.getD p default) ≤ 0) →
    (heapify cmp l n i).length = l.length ∧
    (heapify cmp l n i).Perm l ∧
    (∀ j, isDesc i j = false ∨ n ≤ j →
        (heapify cmp l n i).getD j default = l.getD j default) ∧
    (∀ p c, isDesc i p = true → c < n → (c = 2 * p + 1 ∨ c = 2 * p + 2) →
        cmp ((heapify cmp l n i).getD c default)
            ((heapify cmp l n i).getD p default) ≤ 0) ∧
    ((heapify cmp l n i).getD i default = l.getD i default ∨
      ∃ c, (c = 2 * i + 1 ∨ c = 2 * i + 2) ∧ c < n ∧
        (heapify cmp l n i).getD i default = l.getD c default) := by
  intro d
  induction d with
  | zero =>
    intro l n i hd hn hpre
    have hni : n ≤ i := by omega
    have hL : heapify_largest cmp l n i = i := by
      rcases heapify_largest_cases hc l n i with ⟨h1, _⟩ | ⟨_, _, hLn, _, _⟩
      · exact h1
      · have := isDesc_ge (isDesc_refl i)
        omega
    have hstep : heapify cmp l n i = l := by
      rw [heapify]
      simp [hL]
    rw [hstep]
    refine ⟨rfl, List.Perm.refl l, fun j _ => rfl, ?_, Or.inl rfl⟩
    intro p c hdp hcn hch
    have hip : i ≤ p := isDesc_ge hdp
    omega
  | succ d ih =>
    intro l n i hd hn hpre
    rcases heapify_largest_cases hc l n i with ⟨hL, hchildren⟩ | hcase
    · have hstep : heapify cmp l n i = l := by
        rw [heapify]
        simp [hL]
      rw [hstep]
      refine ⟨rfl, List.Perm.refl l, fun j _ => rfl, ?_, Or.inl rfl⟩
      intro p c hdp hcn hch
      by_cases hpi : p = i
      · subst hpi
        exact hchildren c hch hcn
      · exact hpre p c hdp hpi hcn hch
    · obtain ⟨hne, hchild, hLn, hlt, hother⟩ := hcase
      set L := heapify_largest cmp l n i with hLdef
      have hiL : i < L := by rcases hchild with h | h <;> omega
      have hin : i < n := by omega
      have hil : i < l.length := by omega
      have hLl : L < l.length := by omega
      have hdiL : isDesc i L = true := isDesc_child (isDesc_refl i) hchild
      have hLi_false : isDesc L i = false := isDesc_false_of_lt hiL
      have hswap_getD := @getD_swap_items _ _ l i L hil hLl
      -- precondition for the recursive call on the swapped list
      have hpre' : ∀ p c, isDesc L p = true → p ≠ L → c < n →
          (c = 2 * p + 1 ∨ c = 2 * p + 2) →
          cmp ((swap_items l i L).getD c default)
              ((swap_items l i L).getD p default) ≤ 0 := by
        intro p c hdp hpne hcn hch
        have hLp : L ≤ p := isDesc_ge hdp
        have hpc : p < c := by omega
        have hpn : p < n := by omega
        have hgc : (swap_items l i L).getD c default = l.getD c default := by
          rw [hswap_getD c, if_pos (by omega), if_neg (by omega), if_neg (by omega)]
        have hgp : (swap_items l i L).getD p default = l.getD p default := by
          rw [hswap_getD p, if_pos (by omega), if_neg (by omega), if_neg (by omega)]
        rw [hgc, hgp]
        exact hpre p c (isDesc_trans hdiL hdp) (by omega) hcn hch
      obtain ⟨ihlen, ihperm, ihuntouched, ihedges, ihroot⟩ :=
        ih (swap_items l i L) n L (by omega) (by rw [swap_items_length]; omega) hpre'
      have hresult : heapify cmp l n i = heapify cmp (swap_items l i L) n L := by
        rw [heapify]
        simp [← hLdef, hne]
      rw [hresult]
      have hswaplen : (swap_items l i L).length = l.length := swap_items_length l i L
      refine ⟨by omega, ihperm.trans (swap_items_perm l hil hLl), ?_, ?_, ?_⟩
      · -- slots outside the subtree of i (or beyond n) are untouched
        intro j hj
        have hLj : isDesc L j = false ∨ n ≤ j := by
          rcases hj with hj | hj
          · left
            cases hd : isDesc L j with
            | false => rfl
            | true => rw [isDesc_trans hdiL hd] at hj; exact absurd hj (by simp)
          · right; exact hj
        rw [ihuntouched j hLj]
        have hjne_i : j ≠ i := by
          rcases hj with hj | hj
          · intro h; subst h; rw [isDesc_refl] at hj; exact absurd hj (by simp)
          · omega
        have hjne_L : j ≠ L := by
          rcases hj with hj | hj
          · intro h; subst h; rw [hdiL] at hj; exact absurd hj (by simp)
          · omega
        rw [hswap_getD j]
        rcases Nat.lt_or_ge j l.length with hjl | hjl
        · rw [if_pos hjl, if_neg hjne_L, if_neg hjne_i]
        · rw [if_neg (by omega), List.getD_eq_default _ _ (by omega)]
      · -- the heap edge property holds throughout the subtree of i
        intro p c hdp hcn hch
        rcases Bool.eq_false_or_eq_true (isDesc L p) with hLp | hLp
        · exact ihedges p c hLp hcn hch
        · by_cases hpi : p = i
          · rw [hpi] at hch ⊢
            have hgi : (heapify cmp (swap_items l i L) n L).getD i default
                = l.getD L default := by
              rw [ihuntouched i (Or.inl hLi_false), hswap_getD i,
                if_pos (by omega), if_neg (by omega), if_pos rfl]
            rw [hgi]
            by_cases hcL : c = L
            · rw [hcL]
              rcases ihroot with hroot | ⟨c', hc'ch, hc'n, hroot⟩
              · rw [hroot, hswap_getD L, if_pos (by omega), if_pos rfl]
                exact le_of_lt hlt
              · have hc'gt : L < c' := by rcases hc'ch with h | h <;> omega
                rw [hroot, hswap_getD c', if_pos (by omega),
                  if_neg (by omega), if_neg (by omega)]
                exact hpre L c' hdiL (by omega) hc'n hc'ch
            · have hcd : isDesc L c = false := by
                rcases Nat.lt_or_ge c L with hcl | hcl
                · exact isDesc_false_of_lt hcl
                · have hcgt : L < c := by omega
                  rw [isDesc, if_neg (by omega), if_neg (by omega)]
                  have hpar : (c - 1) / 2 = i := by rcases hch with h | h <;> omega
                  rw [hpar]
                  exact hLi_false
              rw [ihuntouched c (Or.inl hcd), hswap_getD c,
                if_pos (by omega), if_neg hcL, if_neg (by omega)]
              exact hother c hch hcn
          · -- p is in the subtree of i but not of L, and p is not i:
            -- neither p nor any of its children is touched
            have hip' : i < p := by
              have := isDesc_ge hdp
              omega
            have hpc : p < c := by rcases hch with h | h <;> omega
            have hcL : c ≠ L := by
              rcases hch with h | h <;> rcases hchild with h' | h' <;> omega
            have hcd : isDesc L c = false := by
              rcases Nat.lt_or_ge c L with hcl | hcl
              · exact isDesc_false_of_lt hcl
              · exact isDesc_not_child hLp (by omega) hch
            have hpL : p ≠ L := by
              intro h; subst h; rw [isDesc_refl] at hLp; exact absurd hLp (by simp)
            rw [ihuntouched c (Or.inl hcd), ihuntouched p (Or.inl hLp)]
            rw [hswap_getD c, if_pos (show c < l.length by omega), if_neg hcL,
              if_neg (show ¬ c = i by omega)]
            rw [hswap_getD p, if_pos (show p < l.length by omega), if_neg hpL,
              if_neg hpi]
            exact hpre p c hdp hpi hcn hch
      · -- the new root value is the old value of the chosen child
        right
        refine ⟨L, hchild, hLn, ?_⟩
        rw [ihuntouched i (Or.inl hLi_false), hswap_getD i,
          if_pos (by omega), if_neg (by omega), if_pos rfl]

theorem heapify_step_edges {α : Type _} [Inhabited α] {cmp : α → α → Int}
    (hc : CmpConsistent cmp) (l : List α) (n m : Nat) (hn : n ≤ l.length)
    (hinv : ∀ p c, m + 1 ≤ p → c < n → (c = 2 * p + 1 ∨ c = 2 * p + 2) →
        cmp (l.getD c default) (l.getD p default) ≤ 0) :
    (heapify cmp l n m).length = l.length ∧
    (heapify cmp l n m).Perm l ∧
    (∀ p c, m ≤ p → c < n → (c = 2 * p + 1 ∨ c = 2 * p + 2) →
        cmp ((heapify cmp l n m).getD c default)
            ((heapify cmp l n m).getD p default) ≤ 0) := by
  have hpre : ∀ p c, isDesc m p = true → p ≠ m → c < n →
      (c = 2 * p + 1 ∨ c = 2 * p + 2) →
      cmp (l.getD c default) (l.getD p default) ≤ 0 := by
    intro p c hdp hpne hcn hch
    have := isDesc_ge hdp
    exact hinv p c (by omega) hcn hch
  obtain ⟨hlen, hperm, huntouched, hedges, _⟩ :=
    heapify_spec hc (n - m) l n m (le_refl _) hn hpre
  refine ⟨hlen, hperm, ?_⟩
  intro p c hp hcn hch
  rcases Bool.eq_false_or_eq_true (isDesc m p) with hmp | hmp
  · exact hedges p c hmp hcn hch
  · have hpne : p ≠ m := by
      intro h; subst h; rw [isDesc_refl] at hmp; exact absurd hmp (by simp)
    have hpc : p < c := by rcases hch with h | h <;> omega
    have hcd : isDesc m c = false := isDesc_not_child hmp (by omega) hch
    rw [huntouched p (Or.inl hmp), huntouched c (Or.inl hcd)]
    exact hinv p c (by omega) hcn hch

theorem heapify_build_loop_spec {α : Type _} [Inhabited α] {cmp : α → α → Int}
    (hc : CmpConsistent cmp) :
    ∀ (i : Nat) (l : List α) (n : Nat), n ≤ l.length →
    (∀ p c, i + 1 ≤ p → c < n → (c = 2 * p + 1 ∨ c = 2 * p + 2) →
        cmp (l.getD c default) (l.getD p default) ≤ 0) →
    (heapify_build_loop cmp n l i).length = l.length ∧
    (heapify_build_loop cmp n l i).Perm l ∧
    (∀ p c, c < n → (c = 2 * p + 1 ∨ c = 2 * p + 2) →
        cmp ((heapify_build_loop cmp n l i).getD c default)
            ((heapify_build_loop cmp n l i).getD p default) ≤ 0) := by
  intro i
  induction i with
  | zero =>
    intro l n hn hinv
    obtain ⟨hlen, hperm, hedges⟩ := heapify_step_edges hc l n 0 hn hinv
    exact ⟨hlen, hperm, fun p c hcn hch => hedges p c (Nat.zero_le p) hcn hch⟩
  | succ i ih =>
    intro l n hn hinv
    obtain ⟨hlen1, hperm1, hedges1⟩ := heapify_step_edges hc l n (i + 1) hn hinv
    obtain ⟨hlen2, hperm2, hedges2⟩ :=
      ih (heapify cmp l n (i + 1)) n (by omega) (fun p c hp => hedges1 p c (by omega))
    exact ⟨by rw [heapify_build_loop, hlen2, hlen1],
      by rw [heapify_build_loop]; exact hperm2.trans hperm1,
      by rw [heapify_build_loop]; exact hedges2⟩

theorem heap_root_max {α : Type _} [Inhabited α] {cmp : α → α → Int}
    (hc : CmpConsistent cmp) (l : List α) (n : Nat)
    (hheap : ∀ p c, c < n → (c = 2 * p + 1 ∨ c = 2 * p + 2) →
        cmp (l.getD c default) (l.getD p default) ≤ 0) :
    ∀ j, j < n → cmp (l.getD j default) (l.getD 0 default) ≤ 0 := by
  intro j
  induction j using Nat.strong_induction_on with
  | _ j ihj =>
    intro hj
    match j with
    | 0 => exact hc.le_refl _
    | j + 1 =>
      have hch : j + 1 = 2 * (j / 2) + 1 ∨ j + 1 = 2 * (j / 2) + 2 := by omega
      have hedge := hheap (j / 2) (j + 1) hj hch
      have hih := ihj (j / 2) (by omega) (by omega)
      exact hc.le_trans hedge hih

theorem drop_eq_of_getD_eq {α : Type _} [Inhabited α] {l1 l2 : List α}
    (hlen : l1.length = l2.length) (m : Nat)
    (h : ∀ j, m ≤ j → l1.getD j default = l2.getD j default) :
    l1.drop m = l2.drop m := by
  apply List.ext_getElem (by simp [hlen])
  intro t ht1 ht2
  have ht1' : m + t < l1.length := by simp at ht1; omega
  have ht2' : m + t < l2.length := by simp at ht2; omega
  have heq := h (m + t) (by omega)
  rw [List.getD_eq_getElem _ _ ht1', List.getD_eq_getElem _ _ ht2'] at heq
  rw [List.getElem_drop, List.getElem_drop]
  exact heq

theorem heapsort_extract_spec {α : Type _} [Inhabited α] {cmp : α → α → Int}
    (hc : CmpConsistent cmp) :
    ∀ (i : Nat) (l : List α), i < l.length →
    (∀ p c, c < i + 1 → (c = 2 * p + 1 ∨ c = 2 * p + 2) →
        cmp (l.getD c default) (l.getD p default) ≤ 0) →
    SortedBy cmp (l.drop (i + 1)) →
    (∀ x ∈ l.take (i + 1), ∀ y ∈ l.drop (i + 1), cmp x y ≤ 0) →
    (heapsort_extract_loop cmp l i).length = l.length ∧
    (heapsort_extract_loop cmp l i).Perm l ∧
    SortedBy cmp (heapsort_extract_loop cmp l i) := by
  intro i
  induction i with
  | zero =>
    intro l _ _ htail hcross
    have h1 : List.Pairwise (fun a b => cmp a b ≤ 0) (l.take 1) := by
      cases l <;> simp
    have hall := List.pairwise_append.mpr ⟨h1, htail, hcross⟩
    rw [List.take_append_drop] at hall
    exact ⟨rfl, List.Perm.refl l, hall⟩
  | succ i ih =>
    intro l hi hheap htail hcross
    have h0len : 0 < l.length := by omega
    have hi1 : i + 1 < l.length := hi
    have hswap := @getD_swap_items _ _ l 0 (i + 1) h0len hi1
    have hswaplen : (swap_items l 0 (i + 1)).length = l.length :=
      swap_items_length l 0 (i + 1)
    -- precondition for the heapify on the shrunk heap
    have hpre' : ∀ p c, isDesc 0 p = true → p ≠ 0 → c < i + 1 →
        (c = 2 * p + 1 ∨ c = 2 * p + 2) →
        cmp ((swap_items l 0 (i + 1)).getD c default)
            ((swap_items l 0 (i + 1)).getD p default) ≤ 0 := by
      intro p c _ hpne hcn hch
      have hpc : p < c := by rcases hch with h | h <;> omega
      rw [hswap c, if_pos (by omega), if_neg (by omega), if_neg (by omega)]
      rw [hswap p, if_pos (by omega), if_neg (by omega), if_neg hpne]
      exact hheap p c (by omega) hch
    obtain ⟨hlen2, hperm2, huntouched2, hedges2, _⟩ :=
      heapify_spec hc (i + 1) (swap_items l 0 (i + 1)) (i + 1) 0 (by omega)
        (by omega) hpre'
    set l2 := heapify cmp (swap_items l 0 (i + 1)) (i + 1) 0 with hl2def
    have hl2len : l2.length = l.length := by rw [hlen2, hswaplen]
    -- the tail from position i+1 onward after this iteration
    have hdrop_swap : (swap_items l 0 (i + 1)).drop (i + 1)
        = l.getD 0 default :: l.drop (i + 2) := by
      apply List.ext_getElem
      · simp [hswaplen]
        omega
      · intro t ht1 ht2
        rw [List.getElem_drop]
        have hswlt : i + 1 + t < (swap_items l 0 (i + 1)).length := by
          simp [hswaplen] at ht1 ⊢
          omega
        have hlt : i + 1 + t < l.length := by rw [← hswaplen]; exact hswlt
        rw [← List.getD_eq_getElem (swap_items l 0 (i + 1)) default hswlt]
        match t with
        | 0 =>
          rw [hswap (i + 1 + 0), if_pos (by omega), if_pos (by omega)]
          rfl
        | t + 1 =>
          rw [hswap (i + 1 + (t + 1)), if_pos (by omega),
            if_neg (by omega), if_neg (by omega)]
          simp only [List.getElem_cons_succ, List.getElem_drop]
          have hidx : i + 1 + (t + 1) = i + 2 + t := by omega
          rw [hidx, List.getD_eq_getElem _ _ (by omega : i + 2 + t < l.length)]
    have hdrop2 : l2.drop (i + 1) = l.getD 0 default :: l.drop (i + 2) := by
      rw [← hdrop_swap]
      exact drop_eq_of_getD_eq (by rw [hlen2]) (i + 1)
        (fun j hj => huntouched2 j (Or.inr hj))
    -- elements of the shrunk heap region all come from the old take (i+2)
    have htake_mem : ∀ x ∈ l2.take (i + 1), ∃ s, s < i + 2 ∧ s < l.length ∧
        l.getD s default = x := by
      intro x hx
      have htakeperm : (l2.take (i + 1)).Perm ((swap_items l 0 (i + 1)).take (i + 1)) := by
        have hjoin : (l2.take (i + 1) ++ l2.drop (i + 1)).Perm
            ((swap_items l 0 (i + 1)).take (i + 1)
              ++ (swap_items l 0 (i + 1)).drop (i + 1)) := by
          rw [List.take_append_drop, List.take_append_drop]
          exact hperm2
        rw [hdrop2, ← hdrop_swap] at hjoin
        exact (List.perm_append_right_iff _).mp hjoin
      have hx' : x ∈ (swap_items l 0 (i + 1)).take (i + 1) := htakeperm.mem_iff.mp hx
      obtain ⟨t, htm, hxt⟩ := List.mem_take_iff_getElem.mp hx'
      have ht1 : t < i + 1 := lt_of_lt_of_le htm (by simp)
      have ht2 : t < l.length := by omega
      have hxt' : (swap_items l 0 (i + 1)).getD t default = x := by
        rw [List.getD_eq_getElem _ _ (by rw [hswaplen]; omega)]
        exact hxt
      rw [hswap t, if_pos (by omega), if_neg (by omega)] at hxt'
      by_cases ht0 : t = 0
      · rw [if_pos ht0] at hxt'
        exact ⟨i + 1, by omega, by omega, hxt'⟩
      · rw [if_neg ht0] at hxt'
        exact ⟨t, by omega, by omega, hxt'⟩
    -- invariants for the next iteration
    have hheap2 : ∀ p c, c < i + 1 → (c = 2 * p + 1 ∨ c = 2 * p + 2) →
        cmp (l2.getD c default) (l2.getD p default) ≤ 0 :=
      fun p c hcn hch => hedges2 p c (isDesc_zero p) hcn hch
    have htail2 : SortedBy cmp (l2.drop (i + 1)) := by
      rw [hdrop2]
      refine List.Pairwise.cons ?_ htail
      intro y hy
      have h0mem : l.getD 0 default ∈ l.take (i + 2) := by
        rw [List.getD_eq_getElem _ _ h0len]
        exact List.mem_take_iff_getElem.mpr ⟨0, by simp; omega, rfl⟩
      exact hcross _ h0mem y hy
    have hcross2 : ∀ x ∈ l2.take (i + 1), ∀ y ∈ l2.drop (i + 1), cmp x y ≤ 0 := by
      intro x hx y hy
      obtain ⟨s, hs1, hs2, hsx⟩ := htake_mem x hx
      rw [hdrop2] at hy
      rcases List.mem_cons.mp hy with rfl | hy'
      · rw [← hsx]
        exact heap_root_max hc l (i + 2) hheap s hs1
      · have hxmem : x ∈ l.take (i + 2) := by
          rw [← hsx, List.getD_eq_getElem _ _ hs2]
          exact List.mem_take_iff_getElem.mpr ⟨s, by simp; omega, rfl⟩
        exact hcross x hxmem y hy'
    obtain ⟨ihlen, ihperm, ihsorted⟩ :=
      ih l2 (by omega) hheap2 htail2 hcross2
    have hstep : heapsort_extract_loop cmp l (i + 1)
        = heapsort_extract_loop cmp l2 i := by
      rw [heapsort_extract_loop]
    refine ⟨by rw [hstep, ihlen, hl2len], ?_, by rw [hstep]; exact ihsorted⟩
    rw [hstep]
    exact ihperm.trans (hperm2.trans (swap_items_perm l h0len hi1))

theorem intCmp_consistent : CmpConsistent intCmp := by
  constructor
  · intro x y
    simp only [intCmp]
    split_ifs <;> omega
  · intro x y z
    simp only [intCmp]
    split_ifs <;> omega

theorem sortedBy_short {α : Type _} {cmp : α → α → Int} {l : List α}
    (h : l.length ≤ 1) : SortedBy cmp l := by
  match l, h with
  | [], _ => exact List.Pairwise.nil
  | [a], _ => exact List.pairwise_singleton _ a

theorem heapsort_main {α : Type _} [Inhabited α] {cmp : α → α → Int}
    (hc : CmpConsistent cmp) (l : List α) (h2 : 2 ≤ l.length) :
    (heapsort_extract_loop cmp
        (heapify_build_loop cmp l.length l (l.length / 2 - 1)) (l.length - 1)).Perm l ∧
    SortedBy cmp (heapsort_extract_loop cmp
        (heapify_build_loop cmp l.length l (l.length / 2 - 1)) (l.length - 1)) := by
  have hinv0 : ∀ p c, l.length / 2 - 1 + 1 ≤ p → c < l.length →
      (c = 2 * p + 1 ∨ c = 2 * p + 2) →
      cmp (l.getD c default) (l.getD p default) ≤ 0 := by
    intro p c hp hcn hch
    exfalso
    rcases hch with h | h <;> omega
  obtain ⟨hblen, hbperm, hbedges⟩ :=
    heapify_build_loop_spec hc (l.length / 2 - 1) l l.length (le_refl _) hinv0
  set b := heapify_build_loop cmp l.length l (l.length / 2 - 1) with hbdef
  have htail0 : SortedBy cmp (b.drop (l.length - 1 + 1)) := by
    have : l.length - 1 + 1 = b.length := by omega
    rw [this, List.drop_length]
    exact List.Pairwise.nil
  have hcross0 : ∀ x ∈ b.take (l.length - 1 + 1), ∀ y ∈ b.drop (l.length - 1 + 1),
      cmp x y ≤ 0 := by
    intro x _ y hy
    have : l.length - 1 + 1 = b.length := by omega
    rw [this, List.drop_length] at hy
    exact absurd hy (List.not_mem_nil y)
  obtain ⟨_, heperm, hesorted⟩ :=
    heapsort_extract_spec hc (l.length - 1) b (by omega)
      (fun p c hcn hch => hbedges p c (by omega) hch) htail0 hcross0
  exact ⟨heperm.trans hbperm, hesorted⟩

/-- **C5**: `mu_store_sort` (byte variant) and `mu_store_psort` (pointer
variant) succeed and rearrange the array in place into a permutation of its
input that is non-decreasing under a consistent comparator; an element count
below 2 is a success that does not modify the array; a NULL base or
comparator, or (byte variant) a zero item size, is a parameter error. -/
theorem mu_store_sort_correct {α : Type _} [Inhabited α] (cmp : α → α → Int)
    (hc : CmpConsistent cmp) :
    (∀ (l : List α) (isz : Nat), isz ≠ 0 →
      ∃ l', mu_store_sort (some l) isz (some cmp) = (MU_STORE_ERR_NONE, some l') ∧
        l'.Perm l ∧ SortedBy cmp l') ∧
    (∀ (l : List α) (isz : Nat), isz ≠ 0 → l.length < 2 →
      mu_store_sort (some l) isz (some cmp) = (MU_STORE_ERR_NONE, some l)) ∧
    (∀ (l : List α),
      ∃ l', mu_store_psort (some l) (some cmp) = (MU_STORE_ERR_NONE, some l') ∧
        l'.Perm l ∧ SortedBy cmp l') ∧
    (∀ (l : List α), l.length < 2 →
      mu_store_psort (some l) (some cmp) = (MU_STORE_ERR_NONE, some l)) ∧
    (∀ (isz : Nat) (c : Option (α → α → Int)),
      mu_store_sort (none : Option (List α)) isz c = (MU_STORE_ERR_PARAM, none)) ∧
    (∀ (l : List α) (isz : Nat),
      mu_store_sort (some l) isz none = (MU_STORE_ERR_PARAM, some l)) ∧
    (∀ (l : List α),
      mu_store_sort (some l) 0 (some cmp) = (MU_STORE_ERR_PARAM, some l)) ∧
    (∀ c : Option (α → α → Int),
      mu_store_psort (none : Option (List α)) c = (MU_STORE_ERR_PARAM, none)) ∧
    (∀ (l : List α), mu_store_psort (some l) none = (MU_STORE_ERR_PARAM, some l)) := by
  refine ⟨?_, ?_, ?_, ?_, ?_, ?_, ?_, ?_, ?_⟩
  · intro l isz hsz
    rcases Nat.lt_or_ge l.length 2 with hshort | hlong
    · exact ⟨l, by simp [mu_store_sort, hsz]; omega, List.Perm.refl l,
        sortedBy_short (by omega)⟩
    · obtain ⟨hperm, hsorted⟩ := heapsort_main hc l hlong
      refine ⟨_, ?_, hperm, hsorted⟩
      simp only [mu_store_sort, if_neg hsz]
      rw [if_neg (by omega)]
  · intro l isz hsz hshort
    simp [mu_store_sort, hsz]
    omega
  · intro l
    rcases Nat.lt_or_ge l.length 2 with hshort | hlong
    · exact ⟨l, by simp [mu_store_psort]; omega, List.Perm.refl l,
        sortedBy_short (by omega)⟩
    · obtain ⟨hperm, hsorted⟩ := heapsort_main hc l hlong
      refine ⟨_, ?_, hperm, hsorted⟩
      simp only [mu_store_psort]
      rw [if_neg (by omega)]
  · intro l hshort
    simp [mu_store_psort]
    omega
  · intro isz c
    cases c <;> rfl
  · intro l isz
    rfl
  · intro l
    rfl
  · intro c
    cases c <;> rfl
  · intro l
    rfl

/-- Concrete witness for `mu_store_sort_correct`: sorting `[3, 1, 2]`. -/
theorem mu_store_sort_correct_witness :
    (4 : Nat) ≠ 0 ∧
    ∃ l', mu_store_sort (some [3, 1, 2]) 4 (some intCmp)
        = (MU_STORE_ERR_NONE, some l') ∧
      l'.Perm [3, 1, 2] ∧ SortedBy intCmp l' :=
  ⟨by decide, (mu_store_sort_correct intCmp intCmp_consistent).1 [3, 1, 2] 4 (by decide)⟩

theorem sort_find_loop_stop {α : Type _} [Inhabited α] {cmp : α → α → Int}
    {l : List α} {target : α} {low high : Nat} (h : ¬ low < high) :
    sort_find_loop cmp l target low high = low := by
  rw [sort_find_loop]
  simp [h]

theorem sort_find_loop_step {α : Type _} [Inhabited α] {cmp : α → α → Int}
    {l : List α} {target : α} {low high : Nat} (h : low < high) :
    sort_find_loop cmp l target low high =
      if cmp (l.getD (low + (high - low) / 2) default) target < 0 then
        sort_find_loop cmp l target (low + (high - low) / 2 + 1) high
      else sort_find_loop cmp l target low (low + (high - low) / 2) := by
  rw [sort_find_loop]
  simp [h]

theorem sort_find_loop_spec {α : Type _} [Inhabited α] {cmp : α → α → Int}
    (hc : CmpConsistent cmp) {l : List α} (hs : SortedBy cmp l) (target : α) :
    ∀ (gas low high : Nat), high - low ≤ gas → low ≤ high → high ≤ l.length →
    (∀ j, j < low → cmp (l.getD j default) target < 0) →
    (∀ j, high ≤ j → j < l.length → 0 ≤ cmp (l.getD j default) target) →
    low ≤ sort_find_loop cmp l target low high ∧
    sort_find_loop cmp l target low high ≤ high ∧
    (∀ j, j < sort_find_loop cmp l target low high →
        cmp (l.getD j default) target < 0) ∧
    (∀ j, sort_find_loop cmp l target low high ≤ j → j < l.length →
        0 ≤ cmp (l.getD j default) target) := by
  intro gas
  induction gas with
  | zero =>
    intro low high hgas hlh hhl hlow hhigh
    have : ¬ low < high := by omega
    rw [sort_find_loop_stop this]
    exact ⟨le_refl _, hlh, hlow, fun j hj hjl => hhigh j (by omega) hjl⟩
  | succ gas ih =>
    intro low high hgas hlh hhl hlow hhigh
    by_cases h : low < high
    · rw [sort_find_loop_step h]
      by_cases hmid : cmp (l.getD (low + (high - low) / 2) default) target < 0
      · rw [if_pos hmid]
        have hlow' : ∀ j, j < low + (high - low) / 2 + 1 →
            cmp (l.getD j default) target < 0 := by
          intro j hj
          rcases Nat.lt_or_ge j low with hjl | hjl
          · exact hlow j hjl
          · have hle : cmp (l.getD j default) (l.getD (low + (high - low) / 2) default) ≤ 0 :=
              hs.le_of_index (by omega) (by omega) hc default
            exact hc.le_lt_trans hle hmid
        obtain ⟨h1, h2, h3, h4⟩ := ih (low + (high - low) / 2 + 1) high
          (by omega) (by omega) hhl hlow' hhigh
        exact ⟨by omega, h2, h3, h4⟩
      · rw [if_neg hmid]
        have hhigh' : ∀ j, low + (high - low) / 2 ≤ j → j < l.length →
            0 ≤ cmp (l.getD j default) target := by
          intro j hj hjl
          by_contra hneg
          have hle : cmp (l.getD (low + (high - low) / 2) default) (l.getD j default) ≤ 0 :=
            hs.le_of_index hj hjl hc default
          exact hmid (hc.le_lt_trans hle (by omega))
        obtain ⟨h1, h2, h3, h4⟩ := ih low (low + (high - low) / 2)
          (by omega) (by omega) (by omega) hlow hhigh'
        exact ⟨h1, by omega, h3, h4⟩
    · rw [sort_find_loop_stop h]
      exact ⟨le_refl _, hlh, hlow, fun j hj hjl => hhigh j (by omega) hjl⟩

/-- Workhorse characterization of `sort_find` on a sorted vector: bound,
strict-below / ge-at-or-above split, uniqueness, first-duplicate property and
the found flag. -/
theorem sort_find_lower_bound_props {α : Type _} [Inhabited α] {cmp : α → α → Int}
    (hc : CmpConsistent cmp) (v : mu_vec_t α) (hs : SortedBy cmp v.items)
    (target : α) :
    (sort_find v cmp target).2 ≤ v.items.length ∧
    (∀ j, j < (sort_find v cmp target).2 →
        cmp (v.items.getD j default) target < 0) ∧
    (∀ j, (sort_find v cmp target).2 ≤ j → j < v.items.length →
        0 ≤ cmp (v.items.getD j default) target) ∧
    (∀ i', i' ≤ v.items.length →
        (∀ j, j < i' → cmp (v.items.getD j default) target < 0) →
        (∀ j, i' ≤ j → j < v.items.length → 0 ≤ cmp (v.items.getD j default) target) →
        i' = (sort_find v cmp target).2) ∧
    ((∃ j, j < v.items.length ∧ cmp (v.items.getD j default) target = 0) →
        cmp (v.items.getD (sort_find v cmp target).2 default) target = 0 ∧
        ∀ j, j < (sort_find v cmp target).2 →
          cmp (v.items.getD j default) target ≠ 0) ∧
    ((sort_find v cmp target).1 = MU_STORE_ERR_NONE ↔
        ∃ j, j < v.items.length ∧ cmp (v.items.getD j default) target = 0) := by
  obtain ⟨h1, h2, h3, h4⟩ := sort_find_loop_spec hc hs target
    (v.items.length - 0) 0 v.items.length (le_refl _) (by omega) (le_refl _)
    (by omega) (by intro j hj hjl; omega)
  have hsnd : (sort_find v cmp target).2
      = sort_find_loop cmp v.items target 0 v.items.length := by
    rw [sort_find]
    split <;> rfl
  rw [hsnd]
  set i := sort_find_loop cmp v.items target 0 v.items.length with hidef
  have huniq : ∀ i', i' ≤ v.items.length →
      (∀ j, j < i' → cmp (v.items.getD j default) target < 0) →
      (∀ j, i' ≤ j → j < v.items.length → 0 ≤ cmp (v.items.getD j default) target) →
      i' = i := by
    intro i' hle hlow hhigh
    rcases Nat.lt_trichotomy i' i with hlt | heq | hgt
    · have ha := h3 i' hlt
      have hb := hhigh i' (le_refl _) (by omega)
      omega
    · exact heq
    · have ha := hlow i hgt
      have hb := h4 i (le_refl _) (by omega)
      omega
  have hfirst : (∃ j, j < v.items.length ∧ cmp (v.items.getD j default) target = 0) →
      cmp (v.items.getD i default) target = 0 ∧
      ∀ j, j < i → cmp (v.items.getD j default) target ≠ 0 := by
    rintro ⟨j, hjl, hjz⟩
    have hji : i ≤ j := by
      by_contra hj
      have := h3 j (by omega)
      omega
    have hil : i < v.items.length := by omega
    have hge := h4 i (le_refl _) hil
    have hle : cmp (v.items.getD i default) target ≤ 0 := by
      have hstep : cmp (v.items.getD i default) (v.items.getD j default) ≤ 0 :=
        hs.le_of_index hji hjl hc default
      exact hc.le_trans hstep (le_of_eq hjz)
    refine ⟨by omega, ?_⟩
    intro j' hj'
    have := h3 j' hj'
    omega
  refine ⟨h2, h3, h4, huniq, hfirst, ?_⟩
  constructor
  · intro hfound
    rw [sort_find] at hfound
    split at hfound
    · next hcond =>
      exact ⟨i, hcond.1, hcond.2⟩
    · exact absurd hfound (by simp)
  · intro hex
    obtain ⟨hz, _⟩ := hfirst hex
    obtain ⟨j, hjl, hjz⟩ := hex
    have hji : i ≤ j := by
      by_contra hj
      have := h3 j (by omega)
      omega
    rw [sort_find]
    rw [if_pos ⟨by omega, hz⟩]

/-- **C4**: on a vector sorted ascending by a consistent comparator, the
binary search `sort_find` used by the sorted-insert engine returns the unique
index `i` in `[0, count]` such that every element below `i` compares strictly
less than the target and every element at or above `i` compares greater than
or equal; when elements equal to the target exist, `i` is the first such
duplicate; additionally the found flag is exactly the existence of an equal
element. -/
theorem sort_find_lower_bound {α : Type _} [Inhabited α] {cmp : α → α → Int}
    (hc : CmpConsistent cmp) (v : mu_vec_t α) (hs : SortedBy cmp v.items)
    (target : α) :
    (sort_find v cmp target).2 ≤ v.items.length ∧
    (∀ j, j < (sort_find v cmp target).2 →
        cmp (v.items.getD j default) target < 0) ∧
    (∀ j, (sort_find v cmp target).2 ≤ j → j < v.items.length →
        0 ≤ cmp (v.items.getD j default) target) ∧
    (∀ i', i' ≤ v.items.length →
        (∀ j, j < i' → cmp (v.items.getD j default) target < 0) →
        (∀ j, i' ≤ j → j < v.items.length → 0 ≤ cmp (v.items.getD j default) target) →
        i' = (sort_find v cmp target).2) ∧
    ((∃ j, j < v.items.length ∧ cmp (v.items.getD j default) target = 0) →
        cmp (v.items.getD (sort_find v cmp target).2 default) target = 0 ∧
        ∀ j, j < (sort_find v cmp target).2 →
          cmp (v.items.getD j default) target ≠ 0) ∧
    ((sort_find v cmp target).1 = MU_STORE_ERR_NONE ↔
        ∃ j, j < v.items.length ∧ cmp (v.items.getD j default) target = 0) := by
  exact sort_find_lower_bound_props hc v hs target

/-- Concrete witness for `sort_find_lower_bound`: searching 2 in `[1, 2, 2, 3]`. -/
theorem sort_find_lower_bound_witness :
    (sort_find (⟨[1, 2, 2, 3], 4⟩ : mu_vec_t Int) intCmp 2).2 ≤
      (⟨[1, 2, 2, 3], 4⟩ : mu_vec_t Int).items.length ∧
    (∀ j, j < (sort_find (⟨[1, 2, 2, 3], 4⟩ : mu_vec_t Int) intCmp 2).2 →
      intCmp ((⟨[1, 2, 2, 3], 4⟩ : mu_vec_t Int).items.getD j default) 2 < 0) := by
  have h := sort_find_lower_bound intCmp_consistent (⟨[1, 2, 2, 3], 4⟩ : mu_vec_t Int)
    (by unfold SortedBy; decide) 2
  exact ⟨h.1, h.2.1⟩

theorem scan_run_end_stop {α : Type _} [Inhabited α] {cmp : α → α → Int}
    {l : List α} {item : α} {idx : Nat}
    (h : ¬ (idx < l.length ∧ cmp (l.getD idx default) item = 0)) :
    scan_run_end cmp l item idx = idx := by
  rw [scan_run_end]
  simp only [dif_neg h]

theorem scan_run_end_step {α : Type _} [Inhabited α] {cmp : α → α → Int}
    {l : List α} {item : α} {idx : Nat}
    (h : idx < l.length ∧ cmp (l.getD idx default) item = 0) :
    scan_run_end cmp l item idx = scan_run_end cmp l item (idx + 1) := by
  rw [scan_run_end]
  simp only [dif_pos h]

theorem scan_run_end_spec {α : Type _} [Inhabited α] {cmp : α → α → Int}
    (l : List α) (item : α) :
    ∀ (gas idx : Nat), l.length - idx ≤ gas →
    idx ≤ scan_run_end cmp l item idx ∧
    (idx ≤ l.length → scan_run_end cmp l item idx ≤ l.length) ∧
    (∀ j, idx ≤ j → j < scan_run_end cmp l item idx →
        cmp (l.getD j default) item = 0) ∧
    (scan_run_end cmp l item idx < l.length →
        cmp (l.getD (scan_run_end cmp l item idx) default) item ≠ 0) := by
  intro gas
  induction gas with
  | zero =>
    intro idx hgas
    have h : ¬ (idx < l.length ∧ cmp (l.getD idx default) item = 0) := by
      intro hcon
      omega
    rw [scan_run_end_stop h]
    refine ⟨le_refl _, fun h' => by omega, fun j h1 h2 => by omega, fun hlt => ?_⟩
    intro hz
    exact h ⟨hlt, hz⟩
  | succ gas ih =>
    intro idx hgas
    by_cases h : idx < l.length ∧ cmp (l.getD idx default) item = 0
    · rw [scan_run_end_step h]
      obtain ⟨h1, h2, h3, h4⟩ := ih (idx + 1) (by omega)
      refine ⟨by omega, fun _ => h2 (by omega), ?_, h4⟩
      intro j hj1 hj2
      rcases Nat.lt_or_ge j (idx + 1) with hj | hj
      · have : j = idx := by omega
        subst this
        exact h.2
      · exact h3 j hj hj2
    · rw [scan_run_end_stop h]
      refine ⟨le_refl _, fun h' => ?_, fun j h1 h2 => by omega, fun hlt => ?_⟩
      · rcases Nat.lt_or_ge idx l.length with hl | hl
        · omega
        · omega
      · intro hz
        exact h ⟨hlt, hz⟩

theorem find_upper_bound_loop_stop {α : Type _} [Inhabited α] {cmp : α → α → Int}
    {l : List α} {item : α} {low high : Nat} (h : ¬ low < high) :
    find_upper_bound_loop cmp l item low high = low := by
  rw [find_upper_bound_loop]
  simp [h]

theorem find_upper_bound_loop_step {α : Type _} [Inhabited α] {cmp : α → α → Int}
    {l : List α} {item : α} {low high : Nat} (h : low < high) :
    find_upper_bound_loop cmp l item low high =
      if cmp item (l.getD (low + (high - low) / 2) default) < 0 then
        find_upper_bound_loop cmp l item low (low + (high - low) / 2)
      else find_upper_bound_loop cmp l item (low + (high - low) / 2 + 1) high := by
  rw [find_upper_bound_loop]
  simp [h]

theorem find_upper_bound_loop_spec {α : Type _} [Inhabited α] {cmp : α → α → Int}
    (hc : CmpConsistent cmp) {l : List α} (hs : SortedBy cmp l) (item : α) :
    ∀ (gas low high : Nat), high - low ≤ gas → low ≤ high → high ≤ l.length →
    (∀ j, j < low → 0 ≤ cmp item (l.getD j default)) →
    (∀ j, high ≤ j → j < l.length → cmp item (l.getD j default) < 0) →
    low ≤ find_upper_bound_loop cmp l item low high ∧
    find_upper_bound_loop cmp l item low high ≤ high ∧
    (∀ j, j < find_upper_bound_loop cmp l item low high →
        0 ≤ cmp item (l.getD j default)) ∧
    (∀ j, find_upper_bound_loop cmp l item low high ≤ j → j < l.length →
        cmp item (l.getD j default) < 0) := by
  intro gas
  induction gas with
  | zero =>
    intro low high hgas hlh hhl hlow hhigh
    rw [find_upper_bound_loop_stop (by omega)]
    exact ⟨le_refl _, hlh, hlow, fun j hj hjl => hhigh j (by omega) hjl⟩
  | succ gas ih =>
    intro low high hgas hlh hhl hlow hhigh
    by_cases h : low < high
    · rw [find_upper_bound_loop_step h]
      by_cases hmid : cmp item (l.getD (low + (high - low) / 2) default) < 0
      · rw [if_pos hmid]
        have hhigh' : ∀ j, low + (high - low) / 2 ≤ j → j < l.length →
            cmp item (l.getD j default) < 0 := by
          intro j hj hjl
          have hle : cmp (l.getD (low + (high - low) / 2) default) (l.getD j default) ≤ 0 :=
            hs.le_of_index hj hjl hc default
          exact hc.lt_le_trans hmid hle
        obtain ⟨h1, h2, h3, h4⟩ := ih low (low + (high - low) / 2)
          (by omega) (by omega) (by omega) hlow hhigh'
        exact ⟨h1, by omega, h3, h4⟩
      · rw [if_neg hmid]
        have hlow' : ∀ j, j < low + (high - low) / 2 + 1 →
            0 ≤ cmp item (l.getD j default) := by
          intro j hj
          rcases Nat.lt_or_ge j low with hjl | hjl
          · exact hlow j hjl
          · by_contra hneg
            have hle : cmp (l.getD j default) (l.getD (low + (high - low) / 2) default) ≤ 0 :=
              hs.le_of_index (by omega) (by omega) hc default
            exact hmid (hc.lt_le_trans (by omega) hle)
        obtain ⟨h1, h2, h3, h4⟩ := ih (low + (high - low) / 2 + 1) high
          (by omega) (by omega) hhl hlow' hhigh
        exact ⟨by omega, h2, h3, h4⟩
    · rw [find_upper_bound_loop_stop h]
      exact ⟨le_refl _, hlh, hlow, fun j hj hjl => hhigh j (by omega) hjl⟩

theorem back_scan_stop {α : Type _} [Inhabited α] {cmp : α → α → Int}
    {l : List α} {item : α} {pos : Nat}
    (h : ¬ (pos > 0 ∧ cmp item (l.getD (pos - 1) default) = 0)) :
    find_first_insertion_point cmp l item pos = pos := by
  rw [find_first_insertion_point]
  simp only [dif_neg h]

theorem back_scan_step {α : Type _} [Inhabited α] {cmp : α → α → Int}
    {l : List α} {item : α} {pos : Nat}
    (h : pos > 0 ∧ cmp item (l.getD (pos - 1) default) = 0) :
    find_first_insertion_point cmp l item pos
      = find_first_insertion_point cmp l item (pos - 1) := by
  rw [find_first_insertion_point]
  simp only [dif_pos h]

theorem find_first_insertion_point_spec {α : Type _} [Inhabited α]
    {cmp : α → α → Int} (l : List α) (item : α) :
    ∀ pos,
    find_first_insertion_point cmp l item pos ≤ pos ∧
    (∀ j, find_first_insertion_point cmp l item pos ≤ j → j < pos →
        cmp item (l.getD j default) = 0) ∧
    (0 < find_first_insertion_point cmp l item pos →
        cmp item (l.getD (find_first_insertion_point cmp l item pos - 1) default) ≠ 0) := by
  intro pos
  induction pos using Nat.strong_induction_on with
  | _ pos ih =>
    by_cases h : pos > 0 ∧ cmp item (l.getD (pos - 1) default) = 0
    · rw [back_scan_step h]
      obtain ⟨h1, h2, h3⟩ := ih (pos - 1) (by omega)
      refine ⟨by omega, ?_, h3⟩
      intro j hj1 hj2
      rcases Nat.lt_or_ge j (pos - 1) with hj | hj
      · exact h2 j hj1 hj
      · have : j = pos - 1 := by omega
        subst this
        exact h.2
    · rw [back_scan_stop h]
      refine ⟨le_refl _, fun j h1 h2 => by omega, fun hpos => ?_⟩
      intro hz
      exact h ⟨hpos, hz⟩

/-- `find_first_match_index` computes the same scan as
`find_first_insertion_point` (the two source functions are textually
identical up to parameter names). -/
theorem find_first_match_index_eq {α : Type _} [Inhabited α]
    {cmp : α → α → Int} (l : List α) (item : α) :
    ∀ idx, find_first_match_index cmp l item idx
      = find_first_insertion_point cmp l item idx := by
  intro idx
  induction idx using Nat.strong_induction_on with
  | _ idx ih =>
    rw [find_first_match_index, find_first_insertion_point]
    by_cases h : idx > 0 ∧ cmp item (l.getD (idx - 1) default) = 0
    · simp only [dif_pos h]
      exact ih (idx - 1) (by omega)
    · simp only [dif_neg h]

theorem fwd_scan_stop {α : Type _} [Inhabited α] {cmp : α → α → Int}
    {l : List α} {item : α} {idx : Nat}
    (h : ¬ (idx < l.length - 1 ∧ cmp item (l.getD (idx + 1) default) = 0)) :
    find_last_match_index cmp l item idx = idx := by
  rw [find_last_match_index]
  simp only [dif_neg h]

theorem fwd_scan_step {α : Type _} [Inhabited α] {cmp : α → α → Int}
    {l : List α} {item : α} {idx : Nat}
    (h : idx < l.length - 1 ∧ cmp item (l.getD (idx + 1) default) = 0) :
    find_last_match_index cmp l item idx
      = find_last_match_index cmp l item (idx + 1) := by
  rw [find_last_match_index]
  simp only [dif_pos h]

theorem find_last_match_index_spec {α : Type _} [Inhabited α]
    {cmp : α → α → Int} (l : List α) (item : α) :
    ∀ (gas idx : Nat), l.length - idx ≤ gas →
    idx ≤ find_last_match_index cmp l item idx ∧
    (idx ≤ l.length - 1 → find_last_match_index cmp l item idx ≤ l.length - 1) ∧
    (∀ j, idx < j → j ≤ find_last_match_index cmp l item idx →
        cmp item (l.getD j default) = 0) ∧
    (find_last_match_index cmp l item idx < l.length - 1 →
        cmp item (l.getD (find_last_match_index cmp l item idx + 1) default) ≠ 0) := by
  intro gas
  induction gas with
  | zero =>
    intro idx hgas
    have h : ¬ (idx < l.length - 1 ∧ cmp item (l.getD (idx + 1) default) = 0) := by
      intro hcon
      omega
    rw [fwd_scan_stop h]
    exact ⟨le_refl _, fun h' => h', fun j h1 h2 => by omega,
      fun hlt => fun hz => h ⟨hlt, hz⟩⟩
  | succ gas ih =>
    intro idx hgas
    by_cases h : idx < l.length - 1 ∧ cmp item (l.getD (idx + 1) default) = 0
    · rw [fwd_scan_step h]
      obtain ⟨h1, h2, h3, h4⟩ := ih (idx + 1) (by omega)
      refine ⟨by omega, fun _ => h2 (by omega), ?_, h4⟩
      intro j hj1 hj2
      rcases Nat.lt_or_ge j (idx + 2) with hj | hj
      · have : j = idx + 1 := by omega
        subst this
        exact h.2
      · exact h3 j (by omega) hj2
    · rw [fwd_scan_stop h]
      exact ⟨le_refl _, fun h' => h', fun j h1 h2 => by omega,
        fun hlt => fun hz => h ⟨hlt, hz⟩⟩

theorem sortedBy_insert_at {α : Type _} [Inhabited α] {cmp : α → α → Int}
    {l : List α} (hs : SortedBy cmp l) (item : α)
    (p : Nat) (hp : p ≤ l.length)
    (hlow : ∀ j, j < p → cmp (l.getD j default) item ≤ 0)
    (hhigh : ∀ j, p ≤ j → j < l.length → cmp item (l.getD j default) ≤ 0) :
    SortedBy cmp (l.take p ++ item :: l.drop p) := by
  rw [SortedBy, List.pairwise_append]
  refine ⟨List.Pairwise.take hs, ?_, ?_⟩
  · refine List.Pairwise.cons ?_ (List.Pairwise.drop hs)
    intro y hy
    obtain ⟨t, ht, hyt⟩ := List.mem_iff_getElem.mp hy
    have htl : p + t < l.length := by simp at ht; omega
    rw [← hyt, List.getElem_drop]
    have := hhigh (p + t) (by omega) htl
    rwa [List.getD_eq_getElem _ _ htl] at this
  · intro x hx y hy
    obtain ⟨j, hj, hxj⟩ := List.mem_take_iff_getElem.mp hx
    have hjp : j < p := lt_of_lt_of_le hj (by simp)
    have hjl : j < l.length := by simp at hj; omega
    rcases List.mem_cons.mp hy with rfl | hy'
    · have := hlow j hjp
      rw [List.getD_eq_getElem _ _ hjl] at this
      rwa [hxj] at this
    · obtain ⟨t, ht, hyt⟩ := List.mem_iff_getElem.mp hy'
      have htl : p + t < l.length := by simp at ht; omega
      rw [← hxj, ← hyt, List.getElem_drop]
      exact (List.pairwise_iff_getElem.mp hs) j (p + t) hjl htl (by omega)

theorem sortedBy_set {α : Type _} [Inhabited α] {cmp : α → α → Int}
    (hc : CmpConsistent cmp) {l : List α} (hs : SortedBy cmp l) (item : α)
    (k : Nat) (hk : k < l.length)
    (hmatch : cmp (l.getD k default) item = 0) :
    SortedBy cmp (l.set k item) := by
  rw [SortedBy, List.pairwise_iff_getElem]
  intro i j hi hj hij
  simp only [List.length_set] at hi hj
  rw [List.getElem_set, List.getElem_set]
  have hpair := List.pairwise_iff_getElem.mp hs
  have hstep1 : cmp item (l.getD k default) ≤ 0 := hc.flip_ge (le_of_eq hmatch.symm)
  by_cases hik : k = i
  · subst hik
    rw [if_pos rfl, if_neg (by omega)]
    have hkj : cmp (l.getD k default) (l[j]) ≤ 0 := by
      rw [List.getD_eq_getElem _ _ hk]
      exact hpair k j hk hj hij
    exact hc.le_trans hstep1 hkj
  · rw [if_neg hik]
    by_cases hjk : k = j
    · subst hjk
      rw [if_pos rfl]
      have hik' : cmp (l[i]) (l.getD k default) ≤ 0 := by
        rw [List.getD_eq_getElem _ _ hk]
        exact hpair i k hi hk hij
      exact hc.le_trans hik' (le_of_eq hmatch)
    · rw [if_neg hjk]
      exact hpair i j hi hj hij

theorem sortedBy_of_range_update {α : Type _} [Inhabited α] {cmp : α → α → Int}
    (hc : CmpConsistent cmp) {l l' : List α} (hs : SortedBy cmp l) (item : α)
    (a b : Nat) (hlen : l'.length = l.length)
    (hchar : ∀ j, l'.getD j default
        = if a ≤ j ∧ j < b then item else l.getD j default)
    (hmatchrange : ∀ j, a ≤ j → j < b → cmp (l.getD j default) item = 0) :
    SortedBy cmp l' := by
  rw [SortedBy, List.pairwise_iff_getElem]
  intro i j hi hj hij
  have hil : i < l.length := by omega
  have hjl : j < l.length := by omega
  have hpair := List.pairwise_iff_getElem.mp hs
  have hgi : l'[i] = if a ≤ i ∧ i < b then item else l.getD i default := by
    rw [← List.getD_eq_getElem l' default hi]
    exact hchar i
  have hgj : l'[j] = if a ≤ j ∧ j < b then item else l.getD j default := by
    rw [← List.getD_eq_getElem l' default hj]
    exact hchar j
  rw [hgi, hgj]
  have hltij : cmp (l.getD i default) (l.getD j default) ≤ 0 :=
    hs.le_of_index (by omega) hjl hc default
  by_cases hir : a ≤ i ∧ i < b
  · rw [if_pos hir]
    by_cases hjr : a ≤ j ∧ j < b
    · rw [if_pos hjr]
      exact hc.le_refl item
    · rw [if_neg hjr]
      have h1 : cmp item (l.getD i default) ≤ 0 :=
        hc.flip_ge (le_of_eq (hmatchrange i hir.1 hir.2).symm)
      exact hc.le_trans h1 hltij
  · rw [if_neg hir]
    by_cases hjr : a ≤ j ∧ j < b
    · rw [if_pos hjr]
      exact hc.le_trans hltij (le_of_eq (hmatchrange j hjr.1 hjr.2))
    · rw [if_neg hjr]
      exact hltij

theorem scan_run_end_congr {α : Type _} [Inhabited α] {cmp : α → α → Int}
    {item : α} :
    ∀ (gas : Nat) (l1 l2 : List α) (idx : Nat), l1.length - idx ≤ gas →
    l1.length = l2.length →
    (∀ j, idx ≤ j → l1.getD j default = l2.getD j default) →
    scan_run_end cmp l1 item idx = scan_run_end cmp l2 item idx := by
  intro gas
  induction gas with
  | zero =>
    intro l1 l2 idx hgas hlen heq
    have h1 : ¬ (idx < l1.length ∧ cmp (l1.getD idx default) item = 0) := by
      intro hcon
      omega
    have h2 : ¬ (idx < l2.length ∧ cmp (l2.getD idx default) item = 0) := by
      intro hcon
      omega
    rw [scan_run_end_stop h1, scan_run_end_stop h2]
  | succ gas ih =>
    intro l1 l2 idx hgas hlen heq
    by_cases h : idx < l1.length ∧ cmp (l1.getD idx default) item = 0
    · have h2 : idx < l2.length ∧ cmp (l2.getD idx default) item = 0 :=
        ⟨by omega, by rw [← heq idx (le_refl _)]; exact h.2⟩
      rw [scan_run_end_step h, scan_run_end_step h2]
      exact ih l1 l2 (idx + 1) (by omega) hlen (fun j hj => heq j (by omega))
    · have h2 : ¬ (idx < l2.length ∧ cmp (l2.getD idx default) item = 0) := by
        intro hcon
        exact h ⟨by omega, by rw [heq idx (le_refl _)]; exact hcon.2⟩
      rw [scan_run_end_stop h, scan_run_end_stop h2]

theorem mu_vec_update_all_loop_stop {α : Type _} [Inhabited α]
    {cmp : α → α → Int} {item : α} {l : List α} {idx : Nat}
    (h : ¬ (idx < l.length ∧ cmp (l.getD idx default) item = 0)) :
    mu_vec_update_all_loop cmp item l idx = l := by
  rw [mu_vec_update_all_loop]
  simp only [dif_neg h]

theorem mu_vec_update_all_loop_step {α : Type _} [Inhabited α]
    {cmp : α → α → Int} {item : α} {l : List α} {idx : Nat}
    (h : idx < l.length ∧ cmp (l.getD idx default) item = 0) :
    mu_vec_update_all_loop cmp item l idx
      = mu_vec_update_all_loop cmp item (l.set idx item) (idx + 1) := by
  rw [mu_vec_update_all_loop]
  simp only [dif_pos h]

theorem mu_vec_update_all_loop_spec {α : Type _} [Inhabited α]
    {cmp : α → α → Int} {item : α} :
    ∀ (gas : Nat) (l : List α) (idx : Nat), l.length - idx ≤ gas →
    (mu_vec_update_all_loop cmp item l idx).length = l.length ∧
    (∀ j, (mu_vec_update_all_loop cmp item l idx).getD j default
        = if idx ≤ j ∧ j < scan_run_end cmp l item idx then item
          else l.getD j default) := by
  intro gas
  induction gas with
  | zero =>
    intro l idx hgas
    have h : ¬ (idx < l.length ∧ cmp (l.getD idx default) item = 0) := by
      intro hcon
      omega
    rw [mu_vec_update_all_loop_stop h, scan_run_end_stop h]
    exact ⟨rfl, fun j => by rw [if_neg (by omega)]⟩
  | succ gas ih =>
    intro l idx hgas
    by_cases h : idx < l.length ∧ cmp (l.getD idx default) item = 0
    · rw [mu_vec_update_all_loop_step h, scan_run_end_step h]
      obtain ⟨ihlen, ihchar⟩ := ih (l.set idx item) (idx + 1) (by simp; omega)
      have hscan_eq : scan_run_end cmp (l.set idx item) item (idx + 1)
          = scan_run_end cmp l item (idx + 1) := by
        apply scan_run_end_congr ((l.set idx item).length - (idx + 1))
          (l.set idx item) l (idx + 1) (le_refl _) (by simp)
        intro j hj
        rcases Nat.lt_or_ge j l.length with hjl | hjl
        · rw [List.getD_eq_getElem _ _ (by simp; omega),
            List.getD_eq_getElem _ _ hjl, List.getElem_set, if_neg (by omega)]
        · rw [List.getD_eq_default _ _ (by simp; omega),
            List.getD_eq_default _ _ (by omega)]
      refine ⟨by rw [ihlen]; simp, ?_⟩
      intro j
      rw [ihchar j, hscan_eq]
      have hrun : idx + 1 ≤ scan_run_end cmp l item (idx + 1) :=
        (scan_run_end_spec l item (l.length - (idx + 1)) (idx + 1) (le_refl _)).1
      rcases Nat.lt_or_ge j (idx + 1) with hj | hj
      · by_cases hji : j = idx
        · subst hji
          rw [if_neg (by omega), if_pos (by omega),
            List.getD_eq_getElem _ _ (by simp; omega), List.getElem_set,
            if_pos rfl]
        · rw [if_neg (by omega), if_neg (by omega)]
          rcases Nat.lt_or_ge j l.length with hjl | hjl
          · rw [List.getD_eq_getElem _ _ (by simp; omega),
              List.getD_eq_getElem _ _ hjl, List.getElem_set, if_neg (by omega)]
          · rw [List.getD_eq_default _ _ (by simp; omega),
              List.getD_eq_default _ _ (by omega)]
      · by_cases hjs : j < scan_run_end cmp l item (idx + 1)
        · rw [if_pos (by omega), if_pos (by omega)]
        · rw [if_neg (by omega), if_neg (by omega)]
          rcases Nat.lt_or_ge j l.length with hjl | hjl
          · rw [List.getD_eq_getElem _ _ (by simp; omega),
              List.getD_eq_getElem _ _ hjl, List.getElem_set, if_neg (by omega)]
          · rw [List.getD_eq_default _ _ (by simp; omega),
              List.getD_eq_default _ _ (by omega)]
    · rw [mu_vec_update_all_loop_stop h, scan_run_end_stop h]
      exact ⟨rfl, fun j => by rw [if_neg (by omega)]⟩

theorem mu_pvec_update_all_loop_stop {α : Type _} {item : α} {l : List α}
    {i last : Nat} (h : ¬ i ≤ last) :
    mu_pvec_update_all_loop item l i last = l := by
  rw [mu_pvec_update_all_loop]
  simp only [dif_neg h]

theorem mu_pvec_update_all_loop_step {α : Type _} {item : α} {l : List α}
    {i last : Nat} (h : i ≤ last) :
    mu_pvec_update_all_loop item l i last
      = mu_pvec_update_all_loop item (l.set i item) (i + 1) last := by
  rw [mu_pvec_update_all_loop]
  simp only [dif_pos h]

theorem mu_pvec_update_all_loop_spec {α : Type _} [Inhabited α] {item : α} :
    ∀ (gas : Nat) (l : List α) (i last : Nat), last + 1 - i ≤ gas →
    (mu_pvec_update_all_loop item l i last).length = l.length ∧
    (∀ j, (mu_pvec_update_all_loop item l i last).getD j default
        = if i ≤ j ∧ j ≤ last ∧ j < l.length then item else l.getD j default) := by
  intro gas
  induction gas with
  | zero =>
    intro l i last hgas
    rw [mu_pvec_update_all_loop_stop (by omega)]
    exact ⟨rfl, fun j => by rw [if_neg (by omega)]⟩
  | succ gas ih =>
    intro l i last hgas
    by_cases h : i ≤ last
    · rw [mu_pvec_update_all_loop_step h]
      obtain ⟨ihlen, ihchar⟩ := ih (l.set i item) (i + 1) last (by omega)
      refine ⟨by rw [ihlen]; simp, ?_⟩
      intro j
      rw [ihchar j]
      simp only [List.length_set]
      by_cases hji : j = i
      · subst hji
        rw [if_neg (by omega)]
        by_cases hjl : j < l.length
        · rw [if_pos ⟨le_refl _, h, hjl⟩,
            List.getD_eq_getElem _ _ (by simp; omega), List.getElem_set,
            if_pos rfl]
        · rw [if_neg (by omega), List.getD_eq_default _ _ (by simp; omega),
            List.getD_eq_default _ _ (by omega)]
      · by_cases hcond : i + 1 ≤ j ∧ j ≤ last ∧ j < l.length
        · rw [if_pos hcond, if_pos ⟨by omega, hcond.2⟩]
        · rw [if_neg hcond, if_neg (by omega)]
          by_cases hjl : j < l.length
          · rw [List.getD_eq_getElem _ _ (by simp; omega),
              List.getD_eq_getElem _ _ hjl, List.getElem_set, if_neg (by omega)]
          · rw [List.getD_eq_default _ _ (by simp; omega),
              List.getD_eq_default _ _ (by omega)]
    · rw [mu_pvec_update_all_loop_stop h]
      exact ⟨rfl, fun j => by rw [if_neg (by omega)]⟩

theorem mu_vec_insert_eq_none {α : Type _} {v : mu_vec_t α} {idx : Nat}
    {item : α} {v' : mu_vec_t α}
    (h : mu_vec_insert (some v) idx (some item) = (MU_STORE_ERR_NONE, some v')) :
    v.items.length < v.capacity ∧ idx ≤ v.items.length ∧
    v' = { v with items := v.items.take idx ++ item :: v.items.drop idx } := by
  simp only [mu_vec_insert] at h
  split_ifs at h with h1 h2
  · exact absurd h (by simp)
  · exact absurd h (by simp)
  · simp only [mu_vec_is_full, ge_iff_le, decide_eq_true_eq] at h1
    have hv' : some v' = some { v with items := v.items.take idx ++ item :: v.items.drop idx } := by
      have := congrArg Prod.snd h
      simpa using this.symm
    exact ⟨by omega, by omega, Option.some.inj hv'⟩

theorem mu_vec_replace_eq_none {α : Type _} {v : mu_vec_t α} {idx : Nat}
    {item : α} {v' : mu_vec_t α}
    (h : mu_vec_replace (some v) idx (some item) = (MU_STORE_ERR_NONE, some v')) :
    idx < v.items.length ∧ v' = { v with items := v.items.set idx item } := by
  simp only [mu_vec_replace] at h
  split_ifs at h with h1
  · exact absurd h (by simp)
  · have hv' : some v' = some { v with items := v.items.set idx item } := by
      have := congrArg Prod.snd h
      simpa using this.symm
    exact ⟨by omega, Option.some.inj hv'⟩

theorem sort_find_found_val {α : Type _} [Inhabited α] {cmp : α → α → Int}
    (v : mu_vec_t α) (item : α)
    (h : (sort_find v cmp item).1 = MU_STORE_ERR_NONE) :
    (sort_find v cmp item).2 < v.items.length ∧
    cmp (v.items.getD (sort_find v cmp item).2 default) item = 0 := by
  rw [sort_find] at h ⊢
  split at h
  · next hcond =>
    rw [if_pos hcond]
    exact hcond
  · exact absurd h (by simp)

theorem vec_sorted_insert_sorted_aux {α : Type _} [Inhabited α]
    {cmp : α → α → Int} (hc : CmpConsistent cmp) (v : mu_vec_t α) (item : α)
    (policy : mu_store_insert_policy_t) (v' : mu_vec_t α)
    (hs : SortedBy cmp v.items)
    (hsucc : mu_vec_sorted_insert (some v) (some item) (some cmp) policy
      = (MU_STORE_ERR_NONE, some v')) :
    SortedBy cmp v'.items := by
  obtain ⟨hlb1, hlb2, hlb3, _, _, _⟩ := sort_find_lower_bound_props hc v hs item
  obtain ⟨hsc1, hsc2, hsc3, hsc4⟩ :=
    @scan_run_end_spec _ _ cmp v.items item
      (v.items.length - (sort_find v cmp item).2) (sort_find v cmp item).2 (le_refl _)
  -- shared sub-proofs
  have hins_lb : ∀ w : mu_vec_t α,
      mu_vec_insert (some v) (sort_find v cmp item).2 (some item)
        = (MU_STORE_ERR_NONE, some w) → SortedBy cmp w.items := by
    intro w hw
    obtain ⟨_, hidx, hw'⟩ := mu_vec_insert_eq_none hw
    rw [hw']
    refine sortedBy_insert_at hs item _ hidx ?_ ?_
    · intro j hj
      exact le_of_lt (hlb2 j hj)
    · intro j hj1 hj2
      exact hc.flip_ge (hlb3 j hj1 hj2)
  have hscan_props : (sort_find v cmp item).1 = MU_STORE_ERR_NONE →
      (∀ j, j < scan_run_end cmp v.items item (sort_find v cmp item).2 →
          cmp (v.items.getD j default) item ≤ 0) ∧
      (∀ j, scan_run_end cmp v.items item (sort_find v cmp item).2 ≤ j →
          j < v.items.length → cmp item (v.items.getD j default) ≤ 0) ∧
      scan_run_end cmp v.items item (sort_find v cmp item).2 ≤ v.items.length := by
    intro hfound
    obtain ⟨hflt, _⟩ := sort_find_found_val v item hfound
    have hule : scan_run_end cmp v.items item (sort_find v cmp item).2 ≤ v.items.length :=
      hsc2 (by omega)
    refine ⟨?_, ?_, hule⟩
    · intro j hj
      rcases Nat.lt_or_ge j (sort_find v cmp item).2 with hji | hji
      · exact le_of_lt (hlb2 j hji)
      · exact le_of_eq (hsc3 j hji hj)
    · intro j hj1 hj2
      have hulen : scan_run_end cmp v.items item (sort_find v cmp item).2
          < v.items.length := by omega
      have hne := hsc4 hulen
      have hge := hlb3 _ hsc1 hulen
      have hpos : 0 < cmp (v.items.getD
          (scan_run_end cmp v.items item (sort_find v cmp item).2) default) item := by
        omega
      have hlt := hc.lt_of_flip_pos hpos
      rcases Nat.eq_or_lt_of_le hj1 with rfl | hj1'
      · exact le_of_lt hlt
      · have hle := hs.le_of_index (le_of_lt hj1') hj2 hc default
        exact le_of_lt (hc.lt_le_trans hlt hle)
  have hupd_last : (sort_find v cmp item).1 = MU_STORE_ERR_NONE →
      ∀ w : mu_vec_t α,
      mu_vec_replace (some v)
          (scan_run_end cmp v.items item (sort_find v cmp item).2 - 1) (some item)
        = (MU_STORE_ERR_NONE, some w) → SortedBy cmp w.items := by
    intro hfound w hw
    obtain ⟨hflt, hfeq⟩ := sort_find_found_val v item hfound
    obtain ⟨hkl, hw'⟩ := mu_vec_replace_eq_none hw
    have hstep := @scan_run_end_step _ _ cmp v.items _ _ ⟨hflt, hfeq⟩
    have hrec := (@scan_run_end_spec _ _ cmp v.items item
      (v.items.length - ((sort_find v cmp item).2 + 1))
      ((sort_find v cmp item).2 + 1) (le_refl _)).1
    have hu1 : (sort_find v cmp item).2 + 1
        ≤ scan_run_end cmp v.items item (sort_find v cmp item).2 := by
      rw [hstep]
      exact hrec
    have hmatch : cmp (v.items.getD
        (scan_run_end cmp v.items item (sort_find v cmp item).2 - 1) default) item = 0 := by
      rcases Nat.eq_or_lt_of_le hu1 with heq | hlt
      · rw [← heq]
        simpa using hfeq
      · exact hsc3 _ (by omega) (by omega)
    rw [hw']
    exact sortedBy_set hc hs item _ hkl hmatch
  cases policy with
  | MU_STORE_INSERT_ANY =>
    simp only [mu_vec_sorted_insert] at hsucc
    split_ifs at hsucc with h1
    · exact absurd hsucc (by simp)
    · exact hins_lb v' hsucc
  | MU_STORE_INSERT_FIRST =>
    simp only [mu_vec_sorted_insert] at hsucc
    split_ifs at hsucc with h1
    · exact absurd hsucc (by simp)
    · exact hins_lb v' hsucc
  | MU_STORE_INSERT_LAST =>
    simp only [mu_vec_sorted_insert] at hsucc
    split_ifs at hsucc with h1 h2
    · exact absurd hsucc (by simp)
    · -- found: insert at the scanned upper bound
      obtain ⟨hrun_lo, hrun_hi, hrun_le⟩ := hscan_props h2
      obtain ⟨_, hidx, hw'⟩ := mu_vec_insert_eq_none hsucc
      rw [hw']
      exact sortedBy_insert_at hs item _ hidx hrun_lo hrun_hi
    · exact hins_lb v' hsucc
  | MU_STORE_UPDATE_FIRST =>
    simp only [mu_vec_sorted_insert] at hsucc
    split_ifs at hsucc with h1
    · obtain ⟨hflt, hfeq⟩ := sort_find_found_val v item h1
      obtain ⟨hkl, hw'⟩ := mu_vec_replace_eq_none hsucc
      rw [hw']
      exact sortedBy_set hc hs item _ hkl hfeq
    · exact absurd hsucc (by simp)
  | MU_STORE_UPDATE_LAST =>
    simp only [mu_vec_sorted_insert] at hsucc
    split_ifs at hsucc with h1
    · exact hupd_last h1 v' hsucc
    · exact absurd hsucc (by simp)
  | MU_STORE_UPDATE_ALL =>
    simp only [mu_vec_sorted_insert] at hsucc
    split_ifs at hsucc with h1
    case neg => exact absurd hsucc (by simp)
    case pos =>
      have hfound := h1
      obtain ⟨hflt, _⟩ := sort_find_found_val v item hfound
      have hv' : v' = { v with items :=
          mu_vec_update_all_loop cmp item v.items (sort_find v cmp item).2 } := by
        have := congrArg Prod.snd hsucc
        simpa using this.symm
      obtain ⟨hulen, huchar⟩ := mu_vec_update_all_loop_spec
        (v.items.length - (sort_find v cmp item).2) v.items
        (sort_find v cmp item).2 (le_refl _)
      rw [hv']
      exact sortedBy_of_range_update hc hs item (sort_find v cmp item).2
        (scan_run_end cmp v.items item (sort_find v cmp item).2) hulen huchar
        (fun j hj1 hj2 => hsc3 j hj1 hj2)
  | MU_STORE_UPSERT_FIRST =>
    simp only [mu_vec_sorted_insert] at hsucc
    split_ifs at hsucc with h1 h2
    · obtain ⟨hflt, hfeq⟩ := sort_find_found_val v item h1
      obtain ⟨hkl, hw'⟩ := mu_vec_replace_eq_none hsucc
      rw [hw']
      exact sortedBy_set hc hs item _ hkl hfeq
    · exact absurd hsucc (by simp)
    · exact hins_lb v' hsucc
  | MU_STORE_UPSERT_LAST =>
    simp only [mu_vec_sorted_insert] at hsucc
    split_ifs at hsucc with h1 h2
    · exact hupd_last h1 v' hsucc
    · exact absurd hsucc (by simp)
    · exact hins_lb v' hsucc
  | MU_STORE_INSERT_UNIQUE =>
    simp only [mu_vec_sorted_insert] at hsucc
    split_ifs at hsucc with h1 h2
    · exact absurd hsucc (by simp)
    · exact absurd hsucc (by simp)
    · exact hins_lb v' hsucc
  | MU_STORE_INSERT_DUPLICATE =>
    simp only [mu_vec_sorted_insert] at hsucc
    split_ifs at hsucc with h1 h2
    · exact absurd hsucc (by simp)
    · exact hins_lb v' hsucc
    · exact absurd hsucc (by simp)

theorem pvec_sorted_insert_sorted_aux {α : Type _} [Inhabited α]
    {cmp : α → α → Int} (hc : CmpConsistent cmp) (v : mu_pvec_t α) (item : α)
    (policy : mu_store_insert_policy_t) (v' : mu_pvec_t α)
    (hs : SortedBy cmp v.item_store)
    (hsucc : mu_pvec_sorted_insert (some v) (some item) (some cmp) policy
      = (MU_STORE_ERR_NONE, some v')) :
    SortedBy cmp v'.item_store := by
  set l := v.item_store with hldef
  obtain ⟨_, hub2, hub3, hub4⟩ :=
    find_upper_bound_loop_spec hc hs item (l.length - 0) 0 l.length (le_refl _)
      (by omega) (le_refl _) (fun j hj => by omega) (fun j hj1 hj2 => by omega)
  set ub := find_upper_bound_loop cmp l item 0 l.length with hubdef
  obtain ⟨hf1, hf2, hf3⟩ := @find_first_insertion_point_spec _ _ cmp l item ub
  -- (a) inserting at the upper bound keeps the store sorted
  have hins_ub : SortedBy cmp (l.take ub ++ item :: l.drop ub) := by
    refine sortedBy_insert_at hs item ub hub2 ?_ ?_
    · intro j hj
      exact hc.flip_ge (hub3 j hj)
    · intro j hj1 hj2
      exact le_of_lt (hub4 j hj1 hj2)
  -- (b) inserting at the first insertion point keeps the store sorted
  have hins_first : SortedBy cmp
      (l.take (find_first_insertion_point cmp l item ub)
        ++ item :: l.drop (find_first_insertion_point cmp l item ub)) := by
    set f := find_first_insertion_point cmp l item ub with hfdef
    refine sortedBy_insert_at hs item f (by omega) ?_ ?_
    · intro j hj
      have hfpos : 0 < f := by omega
      have hne := hf3 hfpos
      have hge : 0 ≤ cmp item (l.getD (f - 1) default) := hub3 (f - 1) (by omega)
      have hlt : cmp (l.getD (f - 1) default) item < 0 :=
        hc.lt_of_flip_pos (by omega)
      rcases Nat.eq_or_lt_of_le (Nat.le_pred_of_lt hj) with heq | hlt'
      · rw [heq]
        exact le_of_lt hlt
      · have hle := @SortedBy.le_of_index _ _ _ hs j (f - 1) (by omega)
          (by omega) hc default
        exact le_of_lt (hc.le_lt_trans hle hlt)
    · intro j hj1 hj2
      rcases Nat.lt_or_ge j ub with hj | hj
      · exact le_of_eq (hf2 j hj1 hj)
      · exact le_of_lt (hub4 j hj hj2)
  -- facts available whenever a match exists at the upper bound
  have hmatch_first : ∀ _ : 0 < ub ∧ cmp item (l.getD (ub - 1) default) = 0,
      cmp item (l.getD (find_first_match_index cmp l item (ub - 1)) default) = 0 := by
    intro hme
    rw [find_first_match_index_eq]
    obtain ⟨hg1, hg2, _⟩ := @find_first_insertion_point_spec _ _ cmp l item (ub - 1)
    rcases Nat.eq_or_lt_of_le hg1 with heq | hlt
    · rw [heq]
      exact hme.2
    · exact hg2 _ (le_refl _) hlt
  have hmatch_last : ∀ _ : 0 < ub ∧ cmp item (l.getD (ub - 1) default) = 0,
      cmp item (l.getD (find_last_match_index cmp l item (ub - 1)) default) = 0 := by
    intro hme
    obtain ⟨hg1, _, hg3, _⟩ := @find_last_match_index_spec _ _ cmp l item
      (l.length - (ub - 1)) (ub - 1) (le_refl _)
    rcases Nat.eq_or_lt_of_le hg1 with heq | hlt
    · rw [← heq]
      exact hme.2
    · exact hg3 _ hlt (le_refl _)
  have hlast_lt : ∀ _ : 0 < ub ∧ cmp item (l.getD (ub - 1) default) = 0,
      find_last_match_index cmp l item (ub - 1) < l.length := by
    intro hme
    obtain ⟨_, hg2, _, _⟩ := @find_last_match_index_spec _ _ cmp l item
      (l.length - (ub - 1)) (ub - 1) (le_refl _)
    have := hg2 (by omega)
    omega
  have hset_first : ∀ _ : 0 < ub ∧ cmp item (l.getD (ub - 1) default) = 0,
      SortedBy cmp (mu_pvec_assign v (find_first_match_index cmp l item (ub - 1)) item).item_store := by
    intro hme
    have hk : find_first_match_index cmp l item (ub - 1) < l.length := by
      rw [find_first_match_index_eq]
      have := (@find_first_insertion_point_spec _ _ cmp l item (ub - 1)).1
      omega
    exact sortedBy_set hc hs item _ hk (hc.eq_symm (hmatch_first hme))
  have hset_last : ∀ _ : 0 < ub ∧ cmp item (l.getD (ub - 1) default) = 0,
      SortedBy cmp (mu_pvec_assign v (find_last_match_index cmp l item (ub - 1)) item).item_store := by
    intro hme
    exact sortedBy_set hc hs item _ (hlast_lt hme) (hc.eq_symm (hmatch_last hme))
  have hupdate_all : ∀ _ : 0 < ub ∧ cmp item (l.getD (ub - 1) default) = 0,
      SortedBy cmp (mu_pvec_update_all_loop item l
        (find_first_match_index cmp l item (ub - 1))
        (find_last_match_index cmp l item (ub - 1))) := by
    intro hme
    set fm := find_first_match_index cmp l item (ub - 1) with hfmdef
    set lm := find_last_match_index cmp l item (ub - 1) with hlmdef
    have hfm_le : fm ≤ ub - 1 := by
      rw [hfmdef, find_first_match_index_eq]
      exact (@find_first_insertion_point_spec _ _ cmp l item (ub - 1)).1
    have hlm_ge : ub - 1 ≤ lm :=
      (@find_last_match_index_spec _ _ cmp l item
        (l.length - (ub - 1)) (ub - 1) (le_refl _)).1
    have hlm_lt : lm < l.length := hlast_lt hme
    have hrange : ∀ j, fm ≤ j → j ≤ lm → cmp item (l.getD j default) = 0 := by
      intro j hj1 hj2
      rcases Nat.lt_or_ge j (ub - 1) with hj | hj
      · rw [hfmdef, find_first_match_index_eq] at hj1
        exact (@find_first_insertion_point_spec _ _ cmp l item (ub - 1)).2.1
          j hj1 hj
      · rcases Nat.eq_or_lt_of_le hj with heq | hj'
        · rw [← heq]
          exact hme.2
        · exact (@find_last_match_index_spec _ _ cmp l item
            (l.length - (ub - 1)) (ub - 1) (le_refl _)).2.2.1 j hj' hj2
    obtain ⟨hulen, huchar⟩ := @mu_pvec_update_all_loop_spec _ _ item
      (lm + 1 - fm) l fm lm (le_refl _)
    refine sortedBy_of_range_update hc hs item fm (lm + 1) hulen ?_ ?_
    · intro j
      rw [huchar j]
      by_cases hcond : fm ≤ j ∧ j < lm + 1
      · rw [if_pos ⟨hcond.1, by omega, by omega⟩, if_pos hcond]
      · rw [if_neg (by omega), if_neg hcond]
    · intro j hj1 hj2
      exact hc.eq_symm (hrange j hj1 (by omega))
  cases policy with
  | MU_STORE_INSERT_ANY =>
    simp only [mu_pvec_sorted_insert] at hsucc
    split_ifs at hsucc with h1
    · exact absurd hsucc (by simp)
    · have hv' : v' = mu_pvec_do_insert v item ub := by
        have := congrArg Prod.snd hsucc
        simpa using this.symm
      rw [hv']
      exact hins_ub
  | MU_STORE_INSERT_LAST =>
    simp only [mu_pvec_sorted_insert] at hsucc
    split_ifs at hsucc with h1
    · exact absurd hsucc (by simp)
    · have hv' : v' = mu_pvec_do_insert v item ub := by
        have := congrArg Prod.snd hsucc
        simpa using this.symm
      rw [hv']
      exact hins_ub
  | MU_STORE_INSERT_FIRST =>
    simp only [mu_pvec_sorted_insert] at hsucc
    split_ifs at hsucc with h1
    · exact absurd hsucc (by simp)
    · have hv' : v' = mu_pvec_do_insert v item
          (find_first_insertion_point cmp l item ub) := by
        have := congrArg Prod.snd hsucc
        simpa using this.symm
      rw [hv']
      exact hins_first
  | MU_STORE_UPDATE_FIRST =>
    simp only [mu_pvec_sorted_insert] at hsucc
    split_ifs at hsucc with h1
    · have hset := hset_first h1
      have hv' : v' = mu_pvec_assign v
          (find_first_match_index cmp l item (ub - 1)) item := by
        have := congrArg Prod.snd hsucc
        simpa using this.symm
      rw [hv']
      exact hset
    · exact absurd hsucc (by simp)
  | MU_STORE_UPDATE_LAST =>
    simp only [mu_pvec_sorted_insert] at hsucc
    split_ifs at hsucc with h1
    · have hset := hset_last h1
      have hv' : v' = mu_pvec_assign v
          (find_last_match_index cmp l item (ub - 1)) item := by
        have := congrArg Prod.snd hsucc
        simpa using this.symm
      rw [hv']
      exact hset
    · exact absurd hsucc (by simp)
  | MU_STORE_UPDATE_ALL =>
    simp only [mu_pvec_sorted_insert] at hsucc
    split_ifs at hsucc with h1
    · have hupd := hupdate_all h1
      have hv' : v'.item_store = mu_pvec_update_all_loop item l
          (find_first_match_index cmp l item (ub - 1))
          (find_last_match_index cmp l item (ub - 1)) := by
        have := congrArg Prod.snd hsucc
        simp at this
        rw [← this]
      rw [hv']
      exact hupd
    · exact absurd hsucc (by simp)
  | MU_STORE_UPSERT_FIRST =>
    simp only [mu_pvec_sorted_insert] at hsucc
    split_ifs at hsucc with h1 h2
    · have hset := hset_first h1
      have hv' : v' = mu_pvec_assign v
          (find_first_match_index cmp l item (ub - 1)) item := by
        have := congrArg Prod.snd hsucc
        simpa using this.symm
      rw [hv']
      exact hset
    · exact absurd hsucc (by simp)
    · have hv' : v' = mu_pvec_do_insert v item
          (find_first_insertion_point cmp l item ub) := by
        have := congrArg Prod.snd hsucc
        simpa using this.symm
      rw [hv']
      exact hins_first
  | MU_STORE_UPSERT_LAST =>
    simp only [mu_pvec_sorted_insert] at hsucc
    split_ifs at hsucc with h1 h2
    · have hset := hset_last h1
      have hv' : v' = mu_pvec_assign v
          (find_last_match_index cmp l item (ub - 1)) item := by
        have := congrArg Prod.snd hsucc
        simpa using this.symm
      rw [hv']
      exact hset
    · exact absurd hsucc (by simp)
    · have hv' : v' = mu_pvec_do_insert v item ub := by
        have := congrArg Prod.snd hsucc
        simpa using this.symm
      rw [hv']
      exact hins_ub
  | MU_STORE_INSERT_UNIQUE =>
    simp only [mu_pvec_sorted_insert] at hsucc
    split_ifs at hsucc with h1 h2
    · exact absurd hsucc (by simp)
    · exact absurd hsucc (by simp)
    · have hv' : v' = mu_pvec_do_insert v item ub := by
        have := congrArg Prod.snd hsucc
        simpa using this.symm
      rw [hv']
      exact hins_ub
  | MU_STORE_INSERT_DUPLICATE =>
    simp only [mu_pvec_sorted_insert] at hsucc
    split_ifs at hsucc with h1 h2
    · exact absurd hsucc (by simp)
    · have hv' : v' = mu_pvec_do_insert v item ub := by
        have := congrArg Prod.snd hsucc
        simpa using this.symm
      rw [hv']
      exact hins_ub
    · exact absurd hsucc (by simp)

/-- **C6**: whenever `mu_vec_sorted_insert` or `mu_pvec_sorted_insert` is
applied to a container sorted ascending by a consistent comparator and
returns success, the container is again sorted ascending by that comparator
after the call, for every insert policy and every item. -/
theorem mu_sorted_insert_preserves_sorted {α : Type _} [Inhabited α]
    (cmp : α → α → Int) (hc : CmpConsistent cmp) :
    (∀ (v : mu_vec_t α) (item : α) (policy : mu_store_insert_policy_t)
        (v' : mu_vec_t α), SortedBy cmp v.items →
      mu_vec_sorted_insert (some v) (some item) (some cmp) policy
        = (MU_STORE_ERR_NONE, some v') →
      SortedBy cmp v'.items) ∧
    (∀ (v : mu_pvec_t α) (item : α) (policy : mu_store_insert_policy_t)
        (v' : mu_pvec_t α), SortedBy cmp v.item_store →
      mu_pvec_sorted_insert (some v) (some item) (some cmp) policy
        = (MU_STORE_ERR_NONE, some v') →
      SortedBy cmp v'.item_store) :=
  ⟨fun v item policy v' hs hsucc =>
      vec_sorted_insert_sorted_aux hc v item policy v' hs hsucc,
    fun v item policy v' hs hsucc =>
      pvec_sorted_insert_sorted_aux hc v item policy v' hs hsucc⟩

theorem mu_vec_sorted_insert_any_empty_eval :
    mu_vec_sorted_insert (some (⟨[], 1⟩ : mu_vec_t Int)) (some 2) (some intCmp)
      MU_STORE_INSERT_ANY = (MU_STORE_ERR_NONE, some ⟨[2], 1⟩) := by
  have hloop : sort_find_loop intCmp ([] : List Int) 2 0 0 = 0 :=
    sort_find_loop_stop (by omega)
  simp only [mu_vec_sorted_insert, sort_find, List.length_nil, hloop]
  norm_num [mu_vec_is_full, mu_vec_insert]

/-- Concrete witness for `mu_sorted_insert_preserves_sorted`: inserting 2
into an empty byte vector with policy INSERT_ANY. -/
theorem mu_sorted_insert_preserves_sorted_witness :
    SortedBy intCmp ([] : List Int) ∧
    SortedBy intCmp ((⟨[2], 1⟩ : mu_vec_t Int)).items := by
  refine ⟨by unfold SortedBy; decide, ?_⟩
  exact (mu_sorted_insert_preserves_sorted intCmp intCmp_consistent).1
    ⟨[], 1⟩ 2 MU_STORE_INSERT_ANY ⟨[2], 1⟩ (by unfold SortedBy; decide)
    mu_vec_sorted_insert_any_empty_eval

theorem pairCmp_consistent : CmpConsistent pairCmp := by
  constructor
  · intro x y
    simp only [pairCmp, intCmp]
    split_ifs <;> omega
  · intro x y z
    simp only [pairCmp, intCmp]
    split_ifs <;> omega

/-- Evaluation of `mu_vec_sorted_insert` with INSERT_DUPLICATE on a sorted
one-element vector holding a matching record: the call succeeds but the new
record `(2,1)` lands at index 0, immediately *before* the matching record
`(2,0)`. -/
theorem mu_vec_insert_duplicate_before_match :
    mu_vec_sorted_insert (some (⟨[((2 : Int), (0 : Int))], 2⟩ : mu_vec_t (Int × Int)))
        (some (2, 1)) (some pairCmp) MU_STORE_INSERT_DUPLICATE
      = (MU_STORE_ERR_NONE, some ⟨[(2, 1), (2, 0)], 2⟩) ∧
    (⟨[((2 : Int), (1 : Int)), (2, 0)], 2⟩ : mu_vec_t (Int × Int))
      ≠ ⟨[(2, 0), (2, 1)], 2⟩ := by
  constructor
  · have h1 : sort_find_loop pairCmp [((2 : Int), (0 : Int))] (2, 1) 0 1 = 0 := by
      rw [sort_find_loop_step (by omega)]
      norm_num [pairCmp, intCmp]
      exact sort_find_loop_stop (by omega)
    simp only [mu_vec_sorted_insert, sort_find, List.length_singleton, h1]
    norm_num [pairCmp, intCmp, mu_vec_is_full, mu_vec_insert]
  · decide

/-- **C2 (amended)**: with policy INSERT_DUPLICATE on a sorted, non-full
container holding at least one element comparing equal to the item, the call
succeeds; `mu_pvec_sorted_insert` places the new element immediately after
the last matching element, while `mu_vec_sorted_insert` places it at the
lower bound, immediately *before* the first matching element.  When no
element compares equal, both fail with the not-found error and leave the
container unchanged. -/
theorem mu_sorted_insert_duplicate_placement {α : Type _} [Inhabited α]
    (cmp : α → α → Int) (hc : CmpConsistent cmp) :
    (∀ (v : mu_vec_t α) (item : α), SortedBy cmp v.items →
      v.items.length < v.capacity →
      (∃ j, j < v.items.length ∧ cmp (v.items.getD j default) item = 0) →
      ∃ f, f < v.items.length ∧ cmp (v.items.getD f default) item = 0 ∧
        (∀ j, j < f → cmp (v.items.getD j default) item ≠ 0) ∧
        mu_vec_sorted_insert (some v) (some item) (some cmp)
            MU_STORE_INSERT_DUPLICATE
          = (MU_STORE_ERR_NONE,
             some { v with items := v.items.take f ++ item :: v.items.drop f })) ∧
    (∀ (v : mu_vec_t α) (item : α), SortedBy cmp v.items →
      (∀ j, j < v.items.length → cmp (v.items.getD j default) item ≠ 0) →
      mu_vec_sorted_insert (some v) (some item) (some cmp)
          MU_STORE_INSERT_DUPLICATE
        = (MU_STORE_ERR_NOTFOUND, some v)) ∧
    (∀ (v : mu_pvec_t α) (item : α), SortedBy cmp v.item_store →
      v.item_store.length < v.capacity →
      (∃ j, j < v.item_store.length ∧ cmp item (v.item_store.getD j default) = 0) →
      ∃ m, m < v.item_store.length ∧ cmp item (v.item_store.getD m default) = 0 ∧
        (∀ j, m < j → j < v.item_store.length →
          cmp item (v.item_store.getD j default) ≠ 0) ∧
        mu_pvec_sorted_insert (some v) (some item) (some cmp)
            MU_STORE_INSERT_DUPLICATE
          = (MU_STORE_ERR_NONE, some (mu_pvec_do_insert v item (m + 1)))) ∧
    (∀ (v : mu_pvec_t α) (item : α), SortedBy cmp v.item_store →
      (∀ j, j < v.item_store.length → cmp item (v.item_store.getD j default) ≠ 0) →
      mu_pvec_sorted_insert (some v) (some item) (some cmp)
          MU_STORE_INSERT_DUPLICATE
        = (MU_STORE_ERR_NOTFOUND, some v)) := by
  refine ⟨?_, ?_, ?_, ?_⟩
  · intro v item hs hnf hex
    obtain ⟨hlb1, hlb2, hlb3, _, hfirst, hiff⟩ := sort_find_lower_bound_props hc v hs item
    obtain ⟨hfz, hfbefore⟩ := hfirst hex
    have hfound : (sort_find v cmp item).1 = MU_STORE_ERR_NONE := hiff.mpr hex
    obtain ⟨hflt, _⟩ := sort_find_found_val v item hfound
    refine ⟨(sort_find v cmp item).2, hflt, hfz, hfbefore, ?_⟩
    simp only [mu_vec_sorted_insert]
    rw [if_neg (not_not_intro hfound),
      if_neg (by simp only [mu_vec_is_full, ge_iff_le, decide_eq_true_eq]; omega)]
    simp only [mu_vec_insert]
    rw [if_neg (by simp only [mu_vec_is_full, ge_iff_le, decide_eq_true_eq]; omega),
      if_neg (by omega)]
  · intro v item hs hnone
    have hnf : ¬ (sort_find v cmp item).1 = MU_STORE_ERR_NONE := by
      obtain ⟨_, _, _, _, _, hiff⟩ := sort_find_lower_bound_props hc v hs item
      intro hfound
      obtain ⟨j, hjl, hjz⟩ := hiff.mp hfound
      exact hnone j hjl hjz
    simp only [mu_vec_sorted_insert]
    rw [if_pos hnf]
  · intro v item hs hnf hex
    obtain ⟨_, hub2, hub3, hub4⟩ :=
      find_upper_bound_loop_spec hc hs item (v.item_store.length - 0) 0
        v.item_store.length (le_refl _) (by omega) (le_refl _)
        (fun j hj => by omega) (fun j hj1 hj2 => by omega)
    obtain ⟨j, hjl, hjz⟩ := hex
    have hjub : j < find_upper_bound_loop cmp v.item_store item 0 v.item_store.length := by
      by_contra hj
      have := hub4 j (by omega) hjl
      omega
    have hubpos : 0 < find_upper_bound_loop cmp v.item_store item 0 v.item_store.length := by
      omega
    have hmez : cmp item (v.item_store.getD
        (find_upper_bound_loop cmp v.item_store item 0 v.item_store.length - 1)
        default) = 0 := by
      have hge := hub3 _ (by omega :
        find_upper_bound_loop cmp v.item_store item 0 v.item_store.length - 1
          < find_upper_bound_loop cmp v.item_store item 0 v.item_store.length)
      have hle : cmp item (v.item_store.getD
          (find_upper_bound_loop cmp v.item_store item 0 v.item_store.length - 1)
          default) ≤ 0 := by
        have hstep : cmp (v.item_store.getD j default) (v.item_store.getD
            (find_upper_bound_loop cmp v.item_store item 0 v.item_store.length - 1)
            default) ≤ 0 :=
          hs.le_of_index (by omega) (by omega) hc default
        exact hc.le_trans (le_of_eq hjz) hstep
      omega
    refine ⟨find_upper_bound_loop cmp v.item_store item 0 v.item_store.length - 1,
      by omega, hmez, ?_, ?_⟩
    · intro j' hj1 hj2
      have := hub4 j' (by omega) hj2
      omega
    · simp only [mu_pvec_sorted_insert]
      rw [if_neg (not_not_intro ⟨hubpos, hmez⟩), if_neg (by omega)]
      have : find_upper_bound_loop cmp v.item_store item 0 v.item_store.length - 1 + 1
          = find_upper_bound_loop cmp v.item_store item 0 v.item_store.length := by
        omega
      rw [this]
  · intro v item hs hnone
    obtain ⟨_, hub2, hub3, hub4⟩ :=
      find_upper_bound_loop_spec hc hs item (v.item_store.length - 0) 0
        v.item_store.length (le_refl _) (by omega) (le_refl _)
        (fun j hj => by omega) (fun j hj1 hj2 => by omega)
    have hnm : ¬ (0 < find_upper_bound_loop cmp v.item_store item 0 v.item_store.length ∧
        cmp item (v.item_store.getD
          (find_upper_bound_loop cmp v.item_store item 0 v.item_store.length - 1)
          default) = 0) := by
      rintro ⟨hpos, hz⟩
      exact hnone _ (by omega) hz
    simp only [mu_pvec_sorted_insert]
    rw [if_pos hnm]

/-- Concrete witness for `mu_sorted_insert_duplicate_placement`: a pointer
vector holding one matching pointer. -/
theorem mu_sorted_insert_duplicate_placement_witness :
    SortedBy intCmp ([5] : List Int) ∧
    (∃ m, m < ([5] : List Int).length ∧ intCmp 5 (([5] : List Int).getD m default) = 0 ∧
      (∀ j, m < j → j < ([5] : List Int).length →
        intCmp 5 (([5] : List Int).getD j default) ≠ 0) ∧
      mu_pvec_sorted_insert (some (⟨[5], 2⟩ : mu_pvec_t Int)) (some 5) (some intCmp)
          MU_STORE_INSERT_DUPLICATE
        = (MU_STORE_ERR_NONE, some (mu_pvec_do_insert ⟨[5], 2⟩ 5 (m + 1)))) := by
  refine ⟨by unfold SortedBy; decide, ?_⟩
  exact (mu_sorted_insert_duplicate_placement intCmp intCmp_consistent).2.2.1
    ⟨[5], 2⟩ 5 (by unfold SortedBy; decide) (by decide) ⟨0, by decide, by decide⟩

/-- **C3**: on a full sorted container (count = capacity) holding at least one
element comparing equal to the item, the update-only policies UPDATE_FIRST,
UPDATE_LAST and UPDATE_ALL succeed and leave the count unchanged, while every
growing policy — INSERT_ANY, INSERT_FIRST, INSERT_LAST, INSERT_DUPLICATE, and
INSERT_UNIQUE / UPSERT_FIRST / UPSERT_LAST on a fresh key — returns the FULL
error with the container unchanged; for both `mu_vec_sorted_insert` and
`mu_pvec_sorted_insert`. -/
theorem mu_sorted_insert_full_container {α : Type _} [Inhabited α]
    (cmp : α → α → Int) (hc : CmpConsistent cmp) :
    (∀ (v : mu_vec_t α) (item : α), SortedBy cmp v.items →
      v.items.length = v.capacity →
      (∃ j, j < v.items.length ∧ cmp (v.items.getD j default) item = 0) →
      (∀ p ∈ [MU_STORE_UPDATE_FIRST, MU_STORE_UPDATE_LAST, MU_STORE_UPDATE_ALL],
        (mu_vec_sorted_insert (some v) (some item) (some cmp) p).1
          = MU_STORE_ERR_NONE ∧
        mu_vec_count (mu_vec_sorted_insert (some v) (some item) (some cmp) p).2
          = v.items.length) ∧
      (∀ p ∈ [MU_STORE_INSERT_ANY, MU_STORE_INSERT_FIRST, MU_STORE_INSERT_LAST,
          MU_STORE_INSERT_DUPLICATE],
        mu_vec_sorted_insert (some v) (some item) (some cmp) p
          = (MU_STORE_ERR_FULL, some v))) ∧
    (∀ (v : mu_vec_t α) (item : α), SortedBy cmp v.items →
      v.items.length = v.capacity →
      (∀ j, j < v.items.length → cmp (v.items.getD j default) item ≠ 0) →
      ∀ p ∈ [MU_STORE_INSERT_UNIQUE, MU_STORE_UPSERT_FIRST, MU_STORE_UPSERT_LAST],
        mu_vec_sorted_insert (some v) (some item) (some cmp) p
          = (MU_STORE_ERR_FULL, some v)) ∧
    (∀ (v : mu_pvec_t α) (item : α), SortedBy cmp v.item_store →
      v.item_store.length = v.capacity →
      (∃ j, j < v.item_store.length ∧ cmp item (v.item_store.getD j default) = 0) →
      (∀ p ∈ [MU_STORE_UPDATE_FIRST, MU_STORE_UPDATE_LAST, MU_STORE_UPDATE_ALL],
        (mu_pvec_sorted_insert (some v) (some item) (some cmp) p).1
          = MU_STORE_ERR_NONE ∧
        mu_pvec_count (mu_pvec_sorted_insert (some v) (some item) (some cmp) p).2
          = v.item_store.length) ∧
      (∀ p ∈ [MU_STORE_INSERT_ANY, MU_STORE_INSERT_FIRST, MU_STORE_INSERT_LAST,
          MU_STORE_INSERT_DUPLICATE],
        mu_pvec_sorted_insert (some v) (some item) (some cmp) p
          = (MU_STORE_ERR_FULL, some v))) ∧
    (∀ (v : mu_pvec_t α) (item : α), SortedBy cmp v.item_store →
      v.item_store.length = v.capacity →
      (∀ j, j < v.item_store.length → cmp item (v.item_store.getD j default) ≠ 0) →
      ∀ p ∈ [MU_STORE_INSERT_UNIQUE, MU_STORE_UPSERT_FIRST, MU_STORE_UPSERT_LAST],
        mu_pvec_sorted_insert (some v) (some item) (some cmp) p
          = (MU_STORE_ERR_FULL, some v)) := by
  refine ⟨?_, ?_, ?_, ?_⟩
  · intro v item hs hfull hex
    obtain ⟨_, _, _, _, _, hiff⟩ := sort_find_lower_bound_props hc v hs item
    have hfound : (sort_find v cmp item).1 = MU_STORE_ERR_NONE := hiff.mpr hex
    obtain ⟨hidx1, hidx2⟩ := sort_find_found_val v item hfound
    obtain ⟨_, hse2, _, _⟩ := scan_run_end_spec v.items item v.items.length
      (sort_find v cmp item).2 (by omega)
    have hscan_le : scan_run_end cmp v.items item (sort_find v cmp item).2
        ≤ v.items.length := hse2 (by omega)
    have hscan_ge : (sort_find v cmp item).2 + 1
        ≤ scan_run_end cmp v.items item (sort_find v cmp item).2 := by
      rw [scan_run_end_step ⟨hidx1, hidx2⟩]
      exact (scan_run_end_spec v.items item v.items.length
        ((sort_find v cmp item).2 + 1) (by omega)).1
    constructor
    · intro p hp
      simp only [List.mem_cons, List.not_mem_nil, or_false] at hp
      rcases hp with rfl | rfl | rfl
      · simp only [mu_vec_sorted_insert]
        rw [if_neg (not_not_intro hfound)]
        simp only [mu_vec_replace]
        rw [if_neg (by omega)]
        exact ⟨rfl, by simp [mu_vec_count]⟩
      · simp only [mu_vec_sorted_insert]
        rw [if_neg (not_not_intro hfound)]
        simp only [mu_vec_replace]
        rw [if_neg (by omega)]
        exact ⟨rfl, by simp [mu_vec_count]⟩
      · simp only [mu_vec_sorted_insert]
        rw [if_neg (not_not_intro hfound)]
        refine ⟨rfl, ?_⟩
        simp only [mu_vec_count]
        exact (mu_vec_update_all_loop_spec
          (v.items.length - (sort_find v cmp item).2) v.items
          (sort_find v cmp item).2 (le_refl _)).1
    · intro p hp
      simp only [List.mem_cons, List.not_mem_nil, or_false] at hp
      have hvf : mu_vec_is_full (some v) = true := by
        simp only [mu_vec_is_full, ge_iff_le, decide_eq_true_eq]
        omega
      rcases hp with rfl | rfl | rfl | rfl
      · simp only [mu_vec_sorted_insert]
        rw [if_pos hvf]
      · simp only [mu_vec_sorted_insert]
        rw [if_pos hvf]
      · simp only [mu_vec_sorted_insert]
        rw [if_pos hvf]
      · simp only [mu_vec_sorted_insert]
        rw [if_neg (not_not_intro hfound), if_pos hvf]
  · intro v item hs hfull hnone
    have hnf : ¬ (sort_find v cmp item).1 = MU_STORE_ERR_NONE := by
      obtain ⟨_, _, _, _, _, hiff⟩ := sort_find_lower_bound_props hc v hs item
      intro hfound
      obtain ⟨j, hjl, hjz⟩ := hiff.mp hfound
      exact hnone j hjl hjz
    have hvf : mu_vec_is_full (some v) = true := by
      simp only [mu_vec_is_full, ge_iff_le, decide_eq_true_eq]
      omega
    intro p hp
    simp only [List.mem_cons, List.not_mem_nil, or_false] at hp
    rcases hp with rfl | rfl | rfl
    · simp only [mu_vec_sorted_insert]
      rw [if_neg hnf, if_pos hvf]
    · simp only [mu_vec_sorted_insert]
      rw [if_neg hnf, if_pos hvf]
    · simp only [mu_vec_sorted_insert]
      rw [if_neg hnf, if_pos hvf]
  · intro v item hs hfull hex
    obtain ⟨_, hub2, hub3, hub4⟩ :=
      find_upper_bound_loop_spec hc hs item (v.item_store.length - 0) 0
        v.item_store.length (le_refl _) (by omega) (le_refl _)
        (fun j hj => by omega) (fun j hj1 hj2 => by omega)
    obtain ⟨j, hjl, hjz⟩ := hex
    have hjub : j < find_upper_bound_loop cmp v.item_store item 0 v.item_store.length := by
      by_contra hj
      have := hub4 j (by omega) hjl
      omega
    have hubpos : 0 < find_upper_bound_loop cmp v.item_store item 0 v.item_store.length := by
      omega
    have hmez : cmp item (v.item_store.getD
        (find_upper_bound_loop cmp v.item_store item 0 v.item_store.length - 1)
        default) = 0 := by
      have hge := hub3 _ (by omega :
        find_upper_bound_loop cmp v.item_store item 0 v.item_store.length - 1
          < find_upper_bound_loop cmp v.item_store item 0 v.item_store.length)
      have hle : cmp item (v.item_store.getD
          (find_upper_bound_loop cmp v.item_store item 0 v.item_store.length - 1)
          default) ≤ 0 := by
        have hstep : cmp (v.item_store.getD j default) (v.item_store.getD
            (find_upper_bound_loop cmp v.item_store item 0 v.item_store.length - 1)
            default) ≤ 0 :=
          hs.le_of_index (by omega) (by omega) hc default
        exact hc.le_trans (le_of_eq hjz) hstep
      omega
    constructor
    · intro p hp
      simp only [List.mem_cons, List.not_mem_nil, or_false] at hp
      rcases hp with rfl | rfl | rfl
      · simp only [mu_pvec_sorted_insert]
        rw [if_neg (not_not_intro ⟨hubpos, hmez⟩)]
        exact ⟨rfl, by simp [mu_pvec_count, mu_pvec_assign]⟩
      · simp only [mu_pvec_sorted_insert]
        rw [if_neg (not_not_intro ⟨hubpos, hmez⟩)]
        exact ⟨rfl, by simp [mu_pvec_count, mu_pvec_assign]⟩
      · simp only [mu_pvec_sorted_insert]
        rw [if_neg (not_not_intro ⟨hubpos, hmez⟩)]
        refine ⟨rfl, ?_⟩
        simp only [mu_pvec_count]
        exact (mu_pvec_update_all_loop_spec _ v.item_store _ _ (le_refl _)).1
    · intro p hp
      simp only [List.mem_cons, List.not_mem_nil, or_false] at hp
      rcases hp with rfl | rfl | rfl | rfl
      · simp only [mu_pvec_sorted_insert]
        rw [if_pos (by omega)]
      · simp only [mu_pvec_sorted_insert]
        rw [if_pos (by omega)]
      · simp only [mu_pvec_sorted_insert]
        rw [if_pos (by omega)]
      · simp only [mu_pvec_sorted_insert]
        rw [if_neg (not_not_intro ⟨hubpos, hmez⟩), if_pos (by omega)]
  · intro v item hs hfull hnone
    obtain ⟨_, hub2, hub3, hub4⟩ :=
      find_upper_bound_loop_spec hc hs item (v.item_store.length - 0) 0
        v.item_store.length (le_refl _) (by omega) (le_refl _)
        (fun j hj => by omega) (fun j hj1 hj2 => by omega)
    have hnm : ¬ (0 < find_upper_bound_loop cmp v.item_store item 0 v.item_store.length ∧
        cmp item (v.item_store.getD
          (find_upper_bound_loop cmp v.item_store item 0 v.item_store.length - 1)
          default) = 0) := by
      rintro ⟨hpos, hz⟩
      exact hnone _ (by omega) hz
    intro p hp
    simp only [List.mem_cons, List.not_mem_nil, or_false] at hp
    rcases hp with rfl | rfl | rfl
    · simp only [mu_pvec_sorted_insert]
      rw [if_neg hnm, if_pos (by omega)]
    · simp only [mu_pvec_sorted_insert]
      rw [if_neg hnm, if_pos (by omega)]
    · simp only [mu_pvec_sorted_insert]
      rw [if_neg hnm, if_pos (by omega)]

/-- Concrete witness for `mu_sorted_insert_full_container`: a full one-slot
vector holding a matching element. -/
theorem mu_sorted_insert_full_container_witness :
    SortedBy intCmp ([(7 : Int)]) ∧
    ((∀ p ∈ [MU_STORE_UPDATE_FIRST, MU_STORE_UPDATE_LAST, MU_STORE_UPDATE_ALL],
      (mu_vec_sorted_insert (some (⟨[7], 1⟩ : mu_vec_t Int)) (some 7)
          (some intCmp) p).1 = MU_STORE_ERR_NONE ∧
      mu_vec_count (mu_vec_sorted_insert (some (⟨[7], 1⟩ : mu_vec_t Int))
          (some 7) (some intCmp) p).2
        = (⟨[7], 1⟩ : mu_vec_t Int).items.length) ∧
    (∀ p ∈ [MU_STORE_INSERT_ANY, MU_STORE_INSERT_FIRST, MU_STORE_INSERT_LAST,
        MU_STORE_INSERT_DUPLICATE],
      mu_vec_sorted_insert (some (⟨[7], 1⟩ : mu_vec_t Int)) (some 7)
          (some intCmp) p
        = (MU_STORE_ERR_FULL, some ⟨[7], 1⟩))) := by
  refine ⟨by unfold SortedBy; decide, ?_⟩
  exact (mu_sorted_insert_full_container intCmp intCmp_consistent).1
    ⟨[7], 1⟩ 7 (by unfold SortedBy; decide) (by decide) ⟨0, by decide, by decide⟩

theorem mu_vec_insert_err_unchanged {α : Type _} (v : mu_vec_t α) (index : Nat)
    (item : Option α)
    (h : (mu_vec_insert (some v) index item).1 ≠ MU_STORE_ERR_NONE) :
    (mu_vec_insert (some v) index item).2 = some v := by
  cases item with
  | none => rfl
  | some item =>
    simp only [mu_vec_insert] at h ⊢
    split_ifs at h ⊢ <;> first | rfl | exact absurd rfl h

theorem mu_vec_replace_err_unchanged {α : Type _} (v : mu_vec_t α) (index : Nat)
    (item : Option α)
    (h : (mu_vec_replace (some v) index item).1 ≠ MU_STORE_ERR_NONE) :
    (mu_vec_replace (some v) index item).2 = some v := by
  cases item with
  | none => rfl
  | some item =>
    simp only [mu_vec_replace] at h ⊢
    split_ifs at h ⊢ <;> first | rfl | exact absurd rfl h

/-- **C7**: every modelled mutating operation of the vector, pointer-vector,
queue and pointer-queue shells that returns an error leaves the container
exactly as it was: the returned handle still holds the original state (count,
head, tail and all stored elements unchanged). -/
theorem mu_error_leaves_state_unchanged {α : Type _} [Inhabited α] :
    (∀ (v : mu_vec_t α) (item : Option α),
      (mu_vec_push (some v) item).1 ≠ MU_STORE_ERR_NONE →
      (mu_vec_push (some v) item).2 = some v) ∧
    (∀ (v : mu_vec_t α),
      (mu_vec_pop (some v)).1 ≠ MU_STORE_ERR_NONE →
      (mu_vec_pop (some v)).2.2 = some v) ∧
    (∀ (v : mu_vec_t α) (index : Nat) (item : Option α),
      (mu_vec_insert (some v) index item).1 ≠ MU_STORE_ERR_NONE →
      (mu_vec_insert (some v) index item).2 = some v) ∧
    (∀ (v : mu_vec_t α) (index : Nat),
      (mu_vec_delete (some v) index).1 ≠ MU_STORE_ERR_NONE →
      (mu_vec_delete (some v) index).2.2 = some v) ∧
    (∀ (v : mu_vec_t α) (index : Nat) (item : Option α),
      (mu_vec_replace (some v) index item).1 ≠ MU_STORE_ERR_NONE →
      (mu_vec_replace (some v) index item).2 = some v) ∧
    (∀ (v : mu_vec_t α) (index : Nat) (io : Option α),
      (mu_vec_swap (some v) index io).1 ≠ MU_STORE_ERR_NONE →
      (mu_vec_swap (some v) index io).2.2 = some v) ∧
    (∀ (v : mu_vec_t α) (item : Option α) (c : Option (α → α → Int))
        (p : mu_store_insert_policy_t),
      (mu_vec_sorted_insert (some v) item c p).1 ≠ MU_STORE_ERR_NONE →
      (mu_vec_sorted_insert (some v) item c p).2 = some v) ∧
    (∀ (v : mu_pvec_t α) (item : α),
      (mu_pvec_push (some v) item).1 ≠ MU_STORE_ERR_NONE →
      (mu_pvec_push (some v) item).2 = some v) ∧
    (∀ (v : mu_pvec_t α) (io : Option Unit),
      (mu_pvec_pop (some v) io).1 ≠ MU_STORE_ERR_NONE →
      (mu_pvec_pop (some v) io).2.2 = some v) ∧
    (∀ (v : mu_pvec_t α) (item : α) (index : Nat),
      (mu_pvec_insert (some v) item index).1 ≠ MU_STORE_ERR_NONE →
      (mu_pvec_insert (some v) item index).2 = some v) ∧
    (∀ (v : mu_pvec_t α) (index : Nat),
      (mu_pvec_delete (some v) index).1 ≠ MU_STORE_ERR_NONE →
      (mu_pvec_delete (some v) index).2.2 = some v) ∧
    (∀ (v : mu_pvec_t α) (item : α) (index : Nat),
      (mu_pvec_replace (some v) item index).1 ≠ MU_STORE_ERR_NONE →
      (mu_pvec_replace (some v) item index).2 = some v) ∧
    (∀ (v : mu_pvec_t α) (item : Option α) (c : Option (α → α → Int))
        (p : mu_store_insert_policy_t),
      (mu_pvec_sorted_insert (some v) item c p).1 ≠ MU_STORE_ERR_NONE →
      (mu_pvec_sorted_insert (some v) item c p).2 = some v) ∧
    (∀ (q : mu_queue_t α) (item : Option α),
      (mu_queue_put (some q) item).1 ≠ MU_STORE_ERR_NONE →
      (mu_queue_put (some q) item).2 = some q) ∧
    (∀ (q : mu_queue_t α),
      (mu_queue_get (some q)).1 ≠ MU_STORE_ERR_NONE →
      (mu_queue_get (some q)).2.2 = some q) ∧
    (∀ (q : mu_pqueue_t α) (item : α),
      (mu_pqueue_put (some q) item).1 ≠ MU_STORE_ERR_NONE →
      (mu_pqueue_put (some q) item).2 = some q) ∧
    (∀ (q : mu_pqueue_t α) (io : Option Unit),
      (mu_pqueue_get (some q) io).1 ≠ MU_STORE_ERR_NONE →
      (mu_pqueue_get (some q) io).2.2 = some q) := by
  refine ⟨?_, ?_, ?_, ?_, ?_, ?_, ?_, ?_, ?_, ?_, ?_, ?_, ?_, ?_, ?_, ?_, ?_⟩
  · intro v item h
    cases item with
    | none => rfl
    | some item =>
      simp only [mu_vec_push] at h ⊢
      split_ifs at h ⊢ <;> first | rfl | exact absurd rfl h
  · intro v h
    simp only [mu_vec_pop] at h ⊢
    split_ifs at h ⊢ <;> first | rfl | exact absurd rfl h
  · exact fun v index item h => mu_vec_insert_err_unchanged v index item h
  · intro v index h
    simp only [mu_vec_delete] at h ⊢
    split_ifs at h ⊢ <;> first | rfl | exact absurd rfl h
  · exact fun v index item h => mu_vec_replace_err_unchanged v index item h
  · intro v index io h
    cases io with
    | none => rfl
    | some io =>
      simp only [mu_vec_swap] at h ⊢
      split_ifs at h ⊢ <;> first | rfl | exact absurd rfl h
  · intro v item c p h
    cases item with
    | none => rfl
    | some item =>
      cases c with
      | none => rfl
      | some cmp =>
        cases p <;> simp only [mu_vec_sorted_insert] at h ⊢ <;>
          split_ifs at h ⊢ <;>
          first
            | rfl
            | exact absurd rfl h
            | exact mu_vec_insert_err_unchanged v _ _ h
            | exact mu_vec_replace_err_unchanged v _ _ h
  · intro v item h
    simp only [mu_pvec_push] at h ⊢
    split_ifs at h ⊢ <;> first | rfl | exact absurd rfl h
  · intro v io h
    cases io with
    | none => rfl
    | some io =>
      simp only [mu_pvec_pop] at h ⊢
      split_ifs at h ⊢ <;> first | rfl | exact absurd rfl h
  · intro v item index h
    simp only [mu_pvec_insert] at h ⊢
    split_ifs at h ⊢ <;> first | rfl | exact absurd rfl h
  · intro v index h
    simp only [mu_pvec_delete] at h ⊢
    split_ifs at h ⊢ <;> first | rfl | exact absurd rfl h
  · intro v item index h
    simp only [mu_pvec_replace] at h ⊢
    split_ifs at h ⊢ <;> first | rfl | exact absurd rfl h
  · intro v item c p h
    cases item with
    | none => rfl
    | some item =>
      cases c with
      | none => rfl
      | some cmp =>
        cases p <;> simp only [mu_pvec_sorted_insert] at h ⊢ <;>
          split_ifs at h ⊢ <;> first | rfl | exact absurd rfl h
  · intro q item h
    cases item with
    | none => rfl
    | some item =>
      simp only [mu_queue_put] at h ⊢
      split_ifs at h ⊢ <;> first | rfl | exact absurd rfl h
  · intro q h
    simp only [mu_queue_get] at h ⊢
    split_ifs at h ⊢ <;> first | rfl | exact absurd rfl h
  · intro q item h
    simp only [mu_pqueue_put] at h ⊢
    split_ifs at h ⊢ <;> first | rfl | exact absurd rfl h
  · intro q io h
    cases io with
    | none => rfl
    | some io =>
      simp only [mu_pqueue_get] at h ⊢
      split_ifs at h ⊢ <;> first | rfl | exact absurd rfl h

/-- Concrete witness for `mu_error_leaves_state_unchanged`: pushing onto a
full one-slot vector fails and returns the vector unchanged. -/
theorem mu_error_leaves_state_unchanged_witness :
    (mu_vec_push (some (⟨[1], 1⟩ : mu_vec_t Int)) (some 2)).1
      ≠ MU_STORE_ERR_NONE ∧
    (mu_vec_push (some (⟨[1], 1⟩ : mu_vec_t Int)) (some 2)).2
      = some ⟨[1], 1⟩ :=
  ⟨by decide,
   (@mu_error_leaves_state_unchanged Int _).1 ⟨[1], 1⟩ (some 2) (by decide)⟩

/-- Counterexample to the claim that every shell's `is_full` returns false on
a NULL handle: `mu_queue_is_full` and `mu_pqueue_is_full` compute
`q == NULL || count >= capacity`, so a NULL queue handle reports *full*. -/
theorem mu_queue_is_full_null_true :
    mu_queue_is_full (none : Option (mu_queue_t Int)) = true ∧
    mu_pqueue_is_full (none : Option (mu_pqueue_t Int)) = true := by
  exact ⟨rfl, rfl⟩

/-- **C8 (amended)**: on a NULL handle, every shell's `capacity` and `count`
return 0 and `is_empty` returns true; `is_full` returns false for the vector
and pointer-vector shells, but *true* for the queue and pointer-queue
shells. -/
theorem mu_null_handle_accessors :
    mu_vec_capacity (none : Option (mu_vec_t Int)) = 0 ∧
    mu_vec_count (none : Option (mu_vec_t Int)) = 0 ∧
    mu_vec_is_empty (none : Option (mu_vec_t Int)) = true ∧
    mu_vec_is_full (none : Option (mu_vec_t Int)) = false ∧
    mu_pvec_capacity (none : Option (mu_pvec_t Int)) = 0 ∧
    mu_pvec_count (none : Option (mu_pvec_t Int)) = 0 ∧
    mu_pvec_is_empty (none : Option (mu_pvec_t Int)) = true ∧
    mu_pvec_is_full (none : Option (mu_pvec_t Int)) = false ∧
    mu_queue_capacity (none : Option (mu_queue_t Int)) = 0 ∧
    mu_queue_count (none : Option (mu_queue_t Int)) = 0 ∧
    mu_queue_is_empty (none : Option (mu_queue_t Int)) = true ∧
    mu_queue_is_full (none : Option (mu_queue_t Int)) = true ∧
    mu_pqueue_capacity (none : Option (mu_pqueue_t Int)) = 0 ∧
    mu_pqueue_count (none : Option (mu_pqueue_t Int)) = 0 ∧
    mu_pqueue_is_empty (none : Option (mu_pqueue_t Int)) = true ∧
    mu_pqueue_is_full (none : Option (mu_pqueue_t Int)) = true := by
  refine ⟨rfl, rfl, rfl, rfl, rfl, rfl, rfl, rfl, rfl, rfl, rfl, rfl, rfl,
    rfl, rfl, rfl⟩

theorem mu_pool_reset_loop_stop {pool : mu_pool_t} {i : Nat}
    (h : ¬ i < pool.n_items) : mu_pool_reset_loop pool i = pool := by
  rw [mu_pool_reset_loop]
  simp [h]

theorem mu_pool_reset_loop_step {pool : mu_pool_t} {i : Nat}
    (h : i < pool.n_items) :
    mu_pool_reset_loop pool i = mu_pool_reset_loop
      ((mu_pool_free pool (pool.item_store + i * pool.item_size)).getD pool)
      (i + 1) := by
  rw [mu_pool_reset_loop]
  simp [h]

theorem mu_pool_reset_loop_spec :
    ∀ (gas : Nat) (pool : mu_pool_t) (i : Nat), pool.n_items - i ≤ gas →
    pool.item_store ≠ 0 →
    mu_pool_reset_loop pool i = { pool with free_list :=
      ((List.range' i (pool.n_items - i)).map
        (fun j => pool.item_store + j * pool.item_size)).reverse
      ++ pool.free_list } := by
  intro gas
  induction gas with
  | zero =>
    intro pool i hgas hstore
    rw [mu_pool_reset_loop_stop (by omega)]
    have hz : pool.n_items - i = 0 := by omega
    rw [hz]
    simp
  | succ gas ih =>
    intro pool i hgas hstore
    by_cases h : i < pool.n_items
    · rw [mu_pool_reset_loop_step h]
      have haddr : ¬ pool.item_store + i * pool.item_size = 0 := by omega
      have hfree : (mu_pool_free pool (pool.item_store + i * pool.item_size)).getD pool
          = { pool with free_list :=
              (pool.item_store + i * pool.item_size) :: pool.free_list } := by
        simp only [mu_pool_free]
        rw [if_neg haddr]
        rfl
      rw [hfree, ih _ (i + 1) (by simp; omega) (by simp; omega)]
      have hn : pool.n_items - i = (pool.n_items - (i + 1)) + 1 := by omega
      simp only [hn, List.range'_succ, List.map_cons, List.reverse_cons,
        List.append_assoc, List.singleton_append]
    · rw [mu_pool_reset_loop_stop h]
      have hz : pool.n_items - i = 0 := by omega
      rw [hz]
      simp

/-- Counterexample to the claim that `mu_pool_init` rejects a NULL backing
storage pointer or a zero item count: the source only checks the item size
and the pool struct, so with NULL storage and item count 1 it still returns
the pool handle (here with an empty free list: the single computed slot
address, `item_store + 0 * item_size = 0`, is NULL and `mu_pool_free` skips
it), and with a zero item count it likewise returns the handle. -/
theorem mu_pool_init_missing_checks :
    mu_pool_init (some ⟨0, [], 0, 0⟩) 0 1 8 = some ⟨0, [], 8, 1⟩ ∧
    mu_pool_init (some ⟨0, [], 0, 0⟩) 0 0 8 = some ⟨0, [], 8, 0⟩ ∧
    mu_pool_init (some ⟨0, [], 0, 0⟩) 0 1 8 ≠ none := by
  have h1 : mu_pool_init (some ⟨0, [], 0, 0⟩) 0 1 8 = some ⟨0, [], 8, 1⟩ := by
    simp only [mu_pool_init, mu_pool_ptr_size]
    rw [if_neg (by omega)]
    simp only [mu_pool_reset]
    rw [mu_pool_reset_loop_step (by decide)]
    rw [show (mu_pool_free ⟨0, [], 8, 1⟩ (0 + 0 * 8)).getD ⟨0, [], 8, 1⟩
        = (⟨0, [], 8, 1⟩ : mu_pool_t) from rfl]
    rw [mu_pool_reset_loop_stop (by decide)]
  refine ⟨h1, ?_, by rw [h1]; exact fun hcon => Option.noConfusion hcon⟩
  simp only [mu_pool_init, mu_pool_ptr_size]
  rw [if_neg (by omega)]
  simp only [mu_pool_reset]
  rw [mu_pool_reset_loop_stop (by decide)]

/-- **C9 (amended)**: `mu_pool_init` returns NULL exactly when the item size
is smaller than one machine pointer word or the pool struct is NULL; the
backing storage pointer and the item count are *not* validated.  When the
storage is non-NULL it returns the pool handle with all `n_items` slot
addresses on the free list (last slot on top). -/
theorem mu_pool_init_behavior :
    (∀ (pool : Option mu_pool_t) (store n sz : Nat),
      mu_pool_init pool store n sz = none ↔
        (sz < mu_pool_ptr_size ∨ pool = none)) ∧
    (∀ (p : mu_pool_t) (store n sz : Nat), mu_pool_ptr_size ≤ sz → store ≠ 0 →
      mu_pool_init (some p) store n sz
        = some ⟨store, ((List.range n).map (fun i => store + i * sz)).reverse,
            sz, n⟩) := by
  constructor
  · intro pool store n sz
    simp only [mu_pool_init]
    split_ifs with h
    · cases pool <;> simp [h]
    · cases pool <;> simp [h]
  · intro p store n sz hsz hstore
    simp only [mu_pool_init]
    rw [if_neg (by omega)]
    simp only [mu_pool_reset]
    rw [mu_pool_reset_loop_spec n ⟨store, [], sz, n⟩ 0 (by simp) hstore]
    simp [List.range_eq_range']

/-- Concrete witness for `mu_pool_init_behavior`: a two-slot pool at a
non-NULL storage address. -/
theorem mu_pool_init_behavior_witness :
    mu_pool_ptr_size ≤ 8 ∧ (100 : Nat) ≠ 0 ∧
    mu_pool_init (some ⟨0, [], 0, 0⟩) 100 2 8
      = some ⟨100, ((List.range 2).map (fun i => 100 + i * 8)).reverse, 8, 2⟩ :=
  ⟨by decide, by decide,
   mu_pool_init_behavior.2 ⟨0, [], 0, 0⟩ 100 2 8 (by decide) (by decide)⟩
